import Mathlib

/-!
# go-attractions-server: a shallow embedding and its verified properties

The development follows the Go sources `utils.go`, `attraction.go`, `db.go`
and `retrieve.go`.

* Go strings are byte sequences (`GoString`).  `len`, slicing and string
  comparison work on bytes; `for i := range s` walks the UTF-8 encoded code
  points and yields the byte index at which each one starts.
* A run-time panic is an `Except.error`.
* A `float32` number is the rational it stands for; every `float32` operation
  rounds its exact result to the nearest `float32` (`round32`), and the IEEE
  outcomes of a division by zero (`NaN`, infinities) are kept apart.  Go's `==`
  on `float32` is `GoFloat.eq`, under which NaN equals nothing.
* SQL tables are lists of rows; a row is a list of column values.
-/

set_option autoImplicit false

namespace Attractions

/-! ## Go strings -/

/-- A Go `string`: an immutable sequence of bytes. -/
abbrev GoString := List UInt8

/-- The Go string written by the literal `s` (its UTF-8 encoding). -/
def goStr (s : String) : GoString := s.data.flatMap String.utf8EncodeChar

/-- The code point `utf8.RuneError`. -/
def RuneError : Nat := 0xFFFD

/-- A UTF-8 continuation byte (`locb <= b && b <= hicb`). -/
def isCont (b : UInt8) : Bool := 0x80 ≤ b.toNat && b.toNat ≤ 0xBF

/-- Go's UTF-8 decoding of the first code point of `s` (`runtime.decoderune`,
`utf8.DecodeRuneInString`): the code point and its width in bytes.  Anything
that is not a shortest-form encoding of a valid code point decodes as
`RuneError` of width 1. -/
def decodeRune : GoString → Nat × Nat
  | [] => (RuneError, 1)
  | b0 :: rest =>
    if b0.toNat < 0x80 then (b0.toNat, 1)
    else if 0xC0 ≤ b0.toNat ∧ b0.toNat < 0xE0 then
      match rest with
      | b1 :: _ =>
        if isCont b1 ∧ 0x7F < (b0.toNat % 0x20) * 0x40 + b1.toNat % 0x40 then
          ((b0.toNat % 0x20) * 0x40 + b1.toNat % 0x40, 2)
        else (RuneError, 1)
      | _ => (RuneError, 1)
    else if 0xE0 ≤ b0.toNat ∧ b0.toNat < 0xF0 then
      match rest with
      | b1 :: b2 :: _ =>
        let r := (b0.toNat % 0x10) * 0x1000 + (b1.toNat % 0x40) * 0x40 + b2.toNat % 0x40
        if isCont b1 ∧ isCont b2 ∧ 0x7FF < r ∧ ¬ (0xD800 ≤ r ∧ r ≤ 0xDFFF) then (r, 3)
        else (RuneError, 1)
      | _ => (RuneError, 1)
    else if 0xF0 ≤ b0.toNat ∧ b0.toNat < 0xF8 then
      match rest with
      | b1 :: b2 :: b3 :: _ =>
        let r := (b0.toNat % 0x08) * 0x40000 + (b1.toNat % 0x40) * 0x1000
                  + (b2.toNat % 0x40) * 0x40 + b3.toNat % 0x40
        if isCont b1 ∧ isCont b2 ∧ isCont b3 ∧ 0xFFFF < r ∧ r ≤ 0x10FFFF then (r, 4)
        else (RuneError, 1)
      | _ => (RuneError, 1)
    else (RuneError, 1)

/-- The iterations of `for i, c := range s`, as pairs `(i, c)`.  The first
argument counts the bytes still to be skipped because they belong to the code
point decoded last; the second is the byte index of the head of the list. -/
def rangeFrom : Nat → Nat → GoString → List (Nat × Nat)
  | _, _, [] => []
  | 0, i, b :: rest =>
    (i, (decodeRune (b :: rest)).1) :: rangeFrom ((decodeRune (b :: rest)).2 - 1) (i + 1) rest
  | k + 1, i, _ :: rest => rangeFrom k (i + 1) rest

/-- The loop `for i, c := range s`. -/
def rangeString (s : GoString) : List (Nat × Nat) := rangeFrom 0 0 s

/-- The slice expression `s[lo:hi]`; it panics unless `0 <= lo <= hi <= len(s)`. -/
def slice (s : GoString) (lo hi : Int) : Except String GoString :=
  if 0 ≤ lo ∧ lo ≤ hi ∧ hi ≤ (s.length : Int) then
    .ok ((s.take hi.toNat).drop lo.toNat)
  else .error "slice bounds out of range"

/-! ## float32 results -/

/-- A `float32` value: not-a-number, an infinity, or a number, kept as the
rational it stands for. -/
inductive GoFloat where
  | nan
  | inf (negative : Bool)
  | num (q : ℚ)
  deriving DecidableEq

/-- The `float32` nearest to the rational `x`: `x` is written as `m * 2^(e-23)`
with `2^23 <= m < 2^24`, and `m` is rounded to the nearest integer, a tie going
to the even one (IEEE round-to-nearest-even with a 24-bit mantissa).  The
exponent range is not limited: `len` is an `int`, so the values that occur in
`compareID` lie between 2^-63 and 2^63, inside the normal range of `float32`. -/
def round32 (x : ℚ) : ℚ :=
  if x = 0 then 0
  else
    let e : Int := Int.log 2 |x|
    let ulp : ℚ := (2 : ℚ) ^ (e - 23)
    let m : ℚ := |x| / ulp
    let n : Int := ⌊m⌋
    let up : Bool := decide (1 / 2 < m - n) || (decide (m - n = 1 / 2) && decide (n % 2 = 1))
    let r : ℚ := (if up then (n : ℚ) + 1 else (n : ℚ)) * ulp
    if x < 0 then -r else r

/-- The `float32` division `x / y` of two `float32` numbers. -/
def GoFloat.div (x y : ℚ) : GoFloat :=
  if y = 0 then (if x = 0 then .nan else .inf (decide (x < 0))) else .num (round32 (x / y))

/-- Go's `==` on two `float32` values: NaN is equal to nothing, itself included. -/
def GoFloat.eq : GoFloat → GoFloat → Bool
  | .num p, .num q => decide (p = q)
  | .inf s, .inf t => s == t
  | _, _ => false

/-! ## utils.go: compareID -/

/-- A Go `map[string]int`; a key that is absent reads as 0. -/
abbrev BigramMap := GoString → Int

/-- The first loop of `compareID`:
`for i := range a[:lena-1] { bi := a[i : i+2]; bigrams[bi]++ }`,
run over the iterations `idx` of the range. -/
def countBigrams (a : GoString) : List (Nat × Nat) → BigramMap → Except String BigramMap
  | [], bigrams => .ok bigrams
  | (i, _) :: idx, bigrams =>
    match slice a i (i + 2) with
    | .error e => .error e
    | .ok bi => countBigrams a idx (fun k => if k = bi then bigrams bi + 1 else bigrams k)

/-- The second loop of `compareID`:
`for i := range b[:lenb-1] { bi := b[i : i+2];
   if count := bigrams[bi]; count > 0 { bigrams[bi] = count - 1; intersect++ } }`;
`intersect` is a `float32`, so the increment is rounded. -/
def scanBigrams (b : GoString) : List (Nat × Nat) → BigramMap → ℚ → Except String ℚ
  | [], _, intersect => .ok intersect
  | (i, _) :: idx, bigrams, intersect =>
    match slice b i (i + 2) with
    | .error e => .error e
    | .ok bi =>
      if bigrams bi > 0 then
        scanBigrams b idx (fun k => if k = bi then bigrams bi - 1 else bigrams k)
          (round32 (intersect + 1))
      else scanBigrams b idx bigrams intersect

/-- The function `compareID(a, b string) float32` of `utils.go`; the result is
`2.0 * intersect / float32(lena+lenb-2)` in `float32` arithmetic. -/
def compareID (a b : GoString) : Except String GoFloat :=
  let lena : Int := a.length
  let lenb : Int := b.length
  if a = b then .ok (.num 1)
  else
    match slice a 0 (lena - 1) with
    | .error e => .error e
    | .ok sa =>
      match countBigrams a (rangeString sa) (fun _ => 0) with
      | .error e => .error e
      | .ok bigrams =>
        match slice b 0 (lenb - 1) with
        | .error e => .error e
        | .ok sb =>
          match scanBigrams b (rangeString sb) bigrams 0 with
          | .error e => .error e
          | .ok intersect =>
            .ok (GoFloat.div (round32 (2 * intersect)) (round32 ((lena + lenb - 2 : Int) : ℚ)))

/-- The two-byte slices `s[i:i+2]` that `compareID` takes from `s`: one for each
iteration `i` of `range s[:len(s)-1]`, in order.  When `s` is ASCII these are
all the length-2 substrings of `s`. -/
def bigramsOf (s : GoString) : List GoString :=
  (rangeString (s.take (s.length - 1))).map (fun p => (s.take (p.1 + 2)).drop p.1)

/-- The number of bigrams two strings share, counted with multiplicity. -/
def sharedBigrams (a b : GoString) : Nat :=
  Multiset.card ((↑(bigramsOf a) : Multiset GoString) ∩ ↑(bigramsOf b))

/-- The number `2.0 * intersect / float32(d)` that `compareID` returns when the
scan finds `shared` common bigrams and `d = lena + lenb - 2` is positive.  The
counter `intersect` is a `float32` and stops growing at 2^24, where adding 1
rounds back to 2^24. -/
def score32 (shared : Nat) (d : Int) : ℚ :=
  round32 (2 * ((min shared (2 ^ 24) : Nat) : ℚ) / round32 (d : ℚ))

/-! ## attraction.go: toID -/

/-- The code points of `s` in order, each with the bytes that encode it, as
`regexp` and `strings.Map` read them.  The first argument counts the bytes
still to be skipped because they belong to the code point decoded last.  A
byte that starts no valid encoding is a `RuneError` of width 1. -/
def runesFrom : Nat → GoString → List (Nat × GoString)
  | _, [] => []
  | 0, b :: rest =>
    ((decodeRune (b :: rest)).1, (b :: rest).take (decodeRune (b :: rest)).2)
      :: runesFrom ((decodeRune (b :: rest)).2 - 1) rest
  | k + 1, _ :: rest => runesFrom k rest

/-- The code points of `s`, each with its bytes. -/
def runesOf (s : GoString) : List (Nat × GoString) := runesFrom 0 s

/-- The value `regex_lith_chars_spaces`:
`([Ą-ą])|([Č-č])|([Ė-ę])|([Į-į])|([Š-š])|([Ū-ū])|([Ų-ų])|([ž-ſ])|([ ])`,
an alternation of nine character classes, each one range of code points. -/
def regex_lith_chars_spaces : List (Nat × Nat) :=
  [(0x0104, 0x0105), (0x010C, 0x010D), (0x0116, 0x0119), (0x012E, 0x012F), (0x0160, 0x0161),
   (0x016A, 0x016B), (0x0172, 0x0173), (0x017E, 0x017F), (0x20, 0x20)]

/-- Whether one of the alternatives of the expression matches the code point `c`. -/
def matchRune (re : List (Nat × Nat)) (c : Nat) : Bool :=
  re.any (fun cls => decide (cls.1 ≤ c ∧ c ≤ cls.2))

/-- The call `re.ReplaceAllString(src, "")` for an alternation of character
classes: every match is one code point, so the result is `src` without the code
points that match; the other bytes are copied as they are. -/
def ReplaceAllString (re : List (Nat × Nat)) (src : GoString) : GoString :=
  ((runesOf src).filter (fun p => !matchRune re p.1)).flatMap (fun p => p.2)

/-- Go's `utf8.AppendRune`: the UTF-8 encoding of a code point; surrogates and
values above `MaxRune` are written as `RuneError`. -/
def encodeRune (r : Nat) : GoString :=
  if r ≤ 0x7F then [UInt8.ofNat r]
  else if r ≤ 0x7FF then [UInt8.ofNat (0xC0 + r / 0x40), UInt8.ofNat (0x80 + r % 0x40)]
  else if 0x10FFFF < r ∨ (0xD800 ≤ r ∧ r ≤ 0xDFFF) then [0xEF, 0xBF, 0xBD]
  else if r ≤ 0xFFFF then
    [UInt8.ofNat (0xE0 + r / 0x1000), UInt8.ofNat (0x80 + r / 0x40 % 0x40),
     UInt8.ofNat (0x80 + r % 0x40)]
  else
    [UInt8.ofNat (0xF0 + r / 0x40000), UInt8.ofNat (0x80 + r / 0x1000 % 0x40),
     UInt8.ofNat (0x80 + r / 0x40 % 0x40), UInt8.ofNat (0x80 + r % 0x40)]

/-- Go's `unicode.ToLower`: ASCII is handled directly, every other code point
is looked up in the Unicode case tables, which are the parameter `tbl`. -/
def unicodeToLower (tbl : Nat → Nat) (r : Nat) : Nat :=
  if r ≤ 0x7F then (if 0x41 ≤ r ∧ r ≤ 0x5A then r + 0x20 else r) else tbl r

/-- Go's `strings.ToLower(s)`, that is `strings.Map(unicode.ToLower, s)`: every
code point of `s` is mapped and written back in UTF-8. -/
def ToLower (tbl : Nat → Nat) (s : GoString) : GoString :=
  (runesOf s).flatMap (fun p => encodeRune (unicodeToLower tbl p.1))

/-- The function `toID(source string) string` of `attraction.go`. -/
def toID (tbl : Nat → Nat) (source : GoString) : GoString :=
  ToLower tbl (ReplaceAllString regex_lith_chars_spaces source)

/-- The entry `{0x0179, 0x017E, UpperLower}` of the case tables of Go's
`unicode` package: inside the range `unicode.ToLower` sets the low bit of the
offset from 0x0179 (so `Ž`, U+017D, maps to `ž`, U+017E).  Code points outside
the range are left as they are. -/
def caseRange0179 (r : Nat) : Nat :=
  if 0x0179 ≤ r ∧ r ≤ 0x017E then 0x0179 + ((r - 0x0179) / 2 * 2 + 1) else r

/-- The code points that `toID` removes, written out:
the space and the letters Ą ą Č č Ė ė Ę ę Į į Š š Ū ū Ų ų ž ſ. -/
def strippedRunes : List Nat :=
  [0x20, 0x0104, 0x0105, 0x010C, 0x010D, 0x0116, 0x0117, 0x0118, 0x0119, 0x012E, 0x012F,
   0x0160, 0x0161, 0x016A, 0x016B, 0x0172, 0x0173, 0x017E, 0x017F]

/-- The string `s` with every code point of `set` removed and every other byte
kept. -/
def removeRunes (set : List Nat) (s : GoString) : GoString :=
  ((runesOf s).filter (fun p => decide (p.1 ∉ set))).flatMap (fun p => p.2)

/-! ## db.go: records, tables and the cache -/

/-- Go's `sql.NullString`. -/
structure NullString where
  String : GoString
  Valid : Bool
  deriving DecidableEq

/-- The struct `Attraction` of `attraction.go`. -/
structure Attraction where
  id : GoString
  category : GoString
  description : GoString
  location : GoString
  name : GoString
  url : NullString
  copyright : NullString
  deriving DecidableEq

/-- The struct `Title` of `db.go`. -/
structure Title where
  compare : GoString
  display : GoString
  deriving DecidableEq

/-- The struct `TitleValues` of `db.go`. -/
structure TitleValues where
  compares : List GoString
  displays : List GoString
  deriving DecidableEq

/-- A Go `error` value: `nil`, or an error with its message. -/
abbrev GoError := Option String

/-- A value stored in a table column: NULL or a text. -/
inductive SqlValue where
  | null
  | text (s : GoString)
  deriving DecidableEq

/-- A table: its column names in the order of the schema, and its rows; a row
holds one value for each column, in the same order. -/
structure Table where
  columns : List String
  rows : List (List SqlValue)
  deriving DecidableEq

/-- A database file with the two tables the program uses. -/
structure Database where
  destinations : Table
  titles : Table
  deriving DecidableEq

/-- The database files, by the path that `getConnection` opens. -/
abbrev World := String → Database

/-- The path of the cache database. -/
def cachePath : String := "./assets/cache.db"

/-- The world in which the database at `path` is replaced by `db`. -/
def World.set (w : World) (path : String) (db : Database) : World :=
  fun p => if p = path then db else w p

/-- The outcome of the storage calls of one run that the tables do not decide:
the error, if any, of opening a connection, of the INSERT and of the DELETE. -/
structure Faults where
  openErr : GoError
  insertErr : GoError
  deleteErr : GoError

/-- A run without storage faults. -/
def noFaults : Faults := ⟨none, none, none⟩

/-- The zero value `Attraction{}`. -/
def zeroAttraction : Attraction := ⟨[], [], [], [], [], ⟨[], false⟩, ⟨[], false⟩⟩

/-- Storing a column value into a `*string` with `rows.Scan`; NULL is refused. -/
def scanString : SqlValue → Except String GoString
  | .null => .error "converting NULL to string is unsupported"
  | .text s => .ok s

/-- Storing a column value into a `*sql.NullString` with `rows.Scan`. -/
def scanNullString : SqlValue → NullString
  | .null => ⟨[], false⟩
  | .text s => ⟨s, true⟩

/-- The value a `sql.NullString` argument is stored as. -/
def NullString.value (n : NullString) : SqlValue :=
  if n.Valid then .text n.String else .null

/-- The call `rows.Scan(&tmp_att.id, &tmp_att.category, &tmp_att.location,
&tmp_att.description, &tmp_att.copyright, &tmp_att.url)` of `readCache`: the
six columns of the row are stored, in this order, into the six fields; the
field `name` keeps its value. -/
def scanAttraction (tmp_att : Attraction) : List SqlValue → Except String Attraction
  | [c0, c1, c2, c3, c4, c5] =>
    match scanString c0, scanString c1, scanString c2, scanString c3 with
    | .ok id, .ok category, .ok location, .ok description =>
      .ok { tmp_att with
            id := id, category := category, location := location, description := description,
            copyright := scanNullString c4, url := scanNullString c5 }
    | _, _, _, _ => .error "sql: Scan error"
  | _ => .error "sql: expected 6 destination arguments in Scan"

/-- The loop `for rows.Next() { ... }` of `readCache`. -/
def readCacheRows : List (List SqlValue) → Attraction → List Attraction
    → List Attraction × GoError
  | [], _, attractions => (attractions, none)
  | row :: rows, tmp_att, attractions =>
    match scanAttraction tmp_att row with
    | .error _ => ([], some "Failed to read row")
    | .ok tmp => readCacheRows rows tmp (attractions ++ [tmp])

/-- The function `readCache() ([]Attraction, error)` of `db.go`; `queryErr` is
the error of `connection.Query`. -/
def readCache (w : World) (queryErr : GoError) : List Attraction × GoError :=
  match queryErr with
  | some _ => ([], some "Failed to read cache")
  | none =>
    match readCacheRows (w cachePath).destinations.rows zeroAttraction [] with
    | (_, some e) => ([], some e)
    | (attractions, none) =>
      if attractions.length = 0 then ([], some "Cache is empty") else (attractions, none)

/-- The function `getTitleFields(ts []Title) *TitleValues` of `db.go`. -/
def getTitleFields (ts : List Title) : TitleValues :=
  ts.foldl (fun tv t => ⟨tv.compares ++ [t.compare], tv.displays ++ [t.display]⟩) ⟨[], []⟩

/-- The call `rows.Scan(&tmp_tit.compare, &tmp_tit.display)` of `readTitles`. -/
def scanTitle : List SqlValue → Except String Title
  | [c0, c1] =>
    match scanString c0, scanString c1 with
    | .ok compare, .ok display => .ok ⟨compare, display⟩
    | _, _ => .error "sql: Scan error"
  | _ => .error "sql: expected 2 destination arguments in Scan"

/-- The loop `for rows.Next() { ... }` of `readTitles`. -/
def readTitlesRows : List (List SqlValue) → List Title → Except String (List Title)
  | [], titles => .ok titles
  | row :: rows, titles =>
    match scanTitle row with
    | .error _ => .error "Failed to read row"
    | .ok tmp_tit => readTitlesRows rows (titles ++ [tmp_tit])

/-- The method `(s *Server) readTitles() (*TitleValues, error)` of `db.go`; the
connection of the server is the one to the cache, and `queryErr` is the error
of `s.connection.Query`. -/
def readTitles (w : World) (queryErr : GoError) : Option TitleValues × GoError :=
  match queryErr with
  | some _ => (none, some "Failed to read cache")
  | none =>
    match readTitlesRows (w cachePath).titles.rows [] with
    | .error e => (none, some e)
    | .ok titles => (some (getTitleFields titles), none)

/-- The row an `INSERT INTO t (cols) VALUES (vals)` adds: every column of the
table takes the value given for it, and NULL when it is not named. -/
def insertRow (t : Table) (cols : List String) (vals : List SqlValue) : List SqlValue :=
  t.columns.map (fun c => ((cols.zip vals).lookup c).getD .null)

/-- One `INSERT INTO t (cols) VALUES tuple, tuple, ...` statement.  It fails as
a whole, leaving the table as it was, when there is no tuple (the statement
then ends after `VALUES`), when a named column is not in the table, or when the
store reports `fault`. -/
def execInsert (t : Table) (cols : List String) (tuples : List (List SqlValue))
    (fault : GoError) : Table × GoError :=
  if tuples.isEmpty then (t, some "incomplete input")
  else if cols.any (fun c => !t.columns.contains c) then (t, some "no such column")
  else
    match fault with
    | some e => (t, some e)
    | none => ({ t with rows := t.rows ++ tuples.map (insertRow t cols) }, none)

/-- The statement `DELETE FROM t`. -/
def execDelete (t : Table) (fault : GoError) : Table × GoError :=
  match fault with
  | some e => (t, some e)
  | none => ({ t with rows := [] }, none)

/-- The function `commitAttractionsToDB(url string, attractions []Attraction) error`
of `db.go`.  The local `connection` starts as nil, so `getConnection` opens the
database at `url`; the INSERT and the `DELETE FROM destinations` that follows
both run on that connection. -/
def commitAttractionsToDB (w : World) (f : Faults) (url : String)
    (attractions : List Attraction) : World × GoError :=
  match f.openErr with
  | some e => (w, some e)
  | none =>
    let args := attractions.map (fun attr =>
      [SqlValue.text attr.id, SqlValue.text attr.category, SqlValue.text attr.description,
       SqlValue.text attr.location, attr.copyright.value])
    let inserted := execInsert (w url).destinations
      ["id", "category", "description", "location", "copyright"] args f.insertErr
    let cleared := execDelete inserted.1 f.deleteErr
    (w.set url { w url with destinations := cleared.1 }, inserted.2)

/-! ## retrieve.go: the image pipeline -/

/-- The struct `Downloadable` of `retrieve.go`; `decoded_img` is nil until
`process` sets it. -/
structure Downloadable (Img : Type) where
  url : GoString
  id : GoString
  image : List UInt8
  decoded_img : Option Img

/-- The calls of the pipeline that leave the program.
`httpGet n url` is the `n`-th `http.Get` of the run followed by
`ioutil.ReadAll`: `none` when `http.Get` returns an error, else the bytes read.
`decode` is `image.Decode`, `resize` is `resize.Resize(1200, 0, img,
resize.Bicubic)` and `crop` is `cutter.Crop` with the 3:2 centred ratio
configuration; `none` is a returned error. -/
structure ImageOps (Img : Type) where
  httpGet : Nat → GoString → Option (List UInt8)
  decode : List UInt8 → Option Img
  resize : Img → Img
  crop : Img → Option Img

/-- The function `getUrls(attractions, toDownload, failed)` of `retrieve.go`; the
two slices behind the pointers are passed in and returned. -/
def getUrls {Img : Type} : List Attraction → List (Downloadable Img) → List GoString
    → List (Downloadable Img) × List GoString
  | [], toDownload, failed => (toDownload, failed)
  | attr :: attractions, toDownload, failed =>
    if attr.url.Valid then
      getUrls attractions
        (toDownload ++ [{ url := attr.url.String, id := attr.id, image := [], decoded_img := none }])
        failed
    else getUrls attractions toDownload (failed ++ [attr.id])

/-- The loop of `download`, from the `n`-th request on, with `new_down` and
`failed` as they stand.  `new_down` shares its array with `*toDownload`, and an
element is written only at or before the place of the one just read, so the
elements still to be read are the original ones. -/
def downloadLoop {Img : Type} (ops : ImageOps Img) : Nat → List (Downloadable Img)
    → List (Downloadable Img) → List GoString → List (Downloadable Img) × List GoString
  | _, [], new_down, failed => (new_down, failed)
  | n, down :: rest, new_down, failed =>
    match ops.httpGet n down.url with
    | none => downloadLoop ops (n + 1) rest new_down (failed ++ [down.id])
    | some body => downloadLoop ops (n + 1) rest (new_down ++ [{ down with image := body }]) failed

/-- The function `download(toDownload, failed)` of `retrieve.go`. -/
def download {Img : Type} (ops : ImageOps Img) (toDownload : List (Downloadable Img))
    (failed : List GoString) : List (Downloadable Img) × List GoString :=
  downloadLoop ops 0 toDownload [] failed

/-- The loop of `process`, with `new_down` and `failed` as they stand. -/
def processLoop {Img : Type} (ops : ImageOps Img) : List (Downloadable Img)
    → List (Downloadable Img) → List GoString → List (Downloadable Img) × List GoString
  | [], new_down, failed => (new_down, failed)
  | down :: rest, new_down, failed =>
    match ops.decode down.image with
    | none => processLoop ops rest new_down (failed ++ [down.id])
    | some img =>
      match ops.crop (ops.resize img) with
      | none => processLoop ops rest new_down (failed ++ [down.id])
      | some cropped =>
        processLoop ops rest (new_down ++ [{ down with decoded_img := some cropped }]) failed

/-- The function `process(toDownload, failed)` of `retrieve.go`. -/
def process {Img : Type} (ops : ImageOps Img) (toDownload : List (Downloadable Img))
    (failed : List GoString) : List (Downloadable Img) × List GoString :=
  processLoop ops toDownload [] failed

/-- The three pipeline calls of `merge`, from empty lists:
`getUrls(attractions, &toDownload, &failed)`, `download(&toDownload, &failed)`,
`process(&toDownload, &failed)`. -/
def runPipeline {Img : Type} (ops : ImageOps Img) (attractions : List Attraction) :
    List (Downloadable Img) × List GoString :=
  let r0 := getUrls attractions [] []
  let r1 := download ops r0.1 r0.2
  process ops r1.1 r1.2

/-- Whether the record that issues the `n`-th request, for `url`, drops out:
the fetch fails, or the bytes do not decode, or the resized image does not
crop. -/
def imageFails {Img : Type} (ops : ImageOps Img) (n : Nat) (url : GoString) : Bool :=
  match ops.httpGet n url with
  | none => true
  | some body =>
    match ops.decode body with
    | none => true
    | some img => (ops.crop (ops.resize img)).isNone

/-- The number of records without an image reference. -/
def countNoUrl (attractions : List Attraction) : Nat :=
  (attractions.filter (fun a => !a.url.Valid)).length

/-- The number of records with an image reference whose image fails at fetch,
decode or crop; the records with a reference issue the requests 0, 1, 2, ...
in their order. -/
def countImageFaults {Img : Type} (ops : ImageOps Img) (attractions : List Attraction) : Nat :=
  (((attractions.filter (fun a => a.url.Valid)).enum).filter
    (fun p => imageFails ops p.1 p.2.url.String)).length

/-- What `download` does to one element: the fetched bytes are stored, or the
element is dropped. -/
def fetched {Img : Type} (ops : ImageOps Img) (p : Nat × Downloadable Img) :
    Option (Downloadable Img) :=
  (ops.httpGet p.1 p.2.url).map (fun body => { p.2 with image := body })

/-- What `process` does to one element: the cropped image is stored, or the
element is dropped. -/
def processed {Img : Type} (ops : ImageOps Img) (d : Downloadable Img) :
    Option (Downloadable Img) :=
  (ops.decode d.image).bind (fun img =>
    (ops.crop (ops.resize img)).map (fun cropped => { d with decoded_img := some cropped }))


/-! ## Sample data -/

/-- A record as `wrap` builds it. -/
def sampleAttraction : Attraction :=
  { id := goStr "vilnius", category := goStr "heritage", description := goStr "d",
    location := goStr "l", name := goStr "Vilnius",
    url := ⟨goStr "http://example.org/v.jpg", true⟩, copyright := ⟨[], false⟩ }

/-- A cache database holding the sample record and its title. -/
def sampleCache : Database :=
  { destinations :=
      { columns := ["id", "category", "description", "location", "url", "copyright"],
        rows := [[.text (goStr "vilnius"), .text (goStr "heritage"), .text (goStr "d"),
                  .text (goStr "l"), .text (goStr "http://example.org/v.jpg"), .null]] },
    titles :=
      { columns := ["compare", "display"],
        rows := [[.text (goStr "vilnius"), .text (goStr "Vilnius")]] } }

/-- An external database whose `destinations` table is empty. -/
def sampleTarget : Database :=
  { destinations :=
      { columns := ["id", "category", "description", "location", "copyright"], rows := [] },
    titles := { columns := ["compare", "display"], rows := [] } }

/-- The cache at its path and the external database at every other path. -/
def sampleWorld : World := fun p => if p = cachePath then sampleCache else sampleTarget

/-- A world in which every database, the cache too, has empty tables. -/
def emptyWorld : World := fun _ => sampleTarget

/-- The record that `readCache` builds from the row of the sample cache: the
Scan stores the third column in `location`, the fourth in `description`, the
fifth in `copyright` and the sixth in `url`. -/
def sampleRead : Attraction :=
  { id := goStr "vilnius", category := goStr "heritage", description := goStr "l",
    location := goStr "d", name := [],
    url := ⟨[], false⟩, copyright := ⟨goStr "http://example.org/v.jpg", true⟩ }

/-- A batch of two records: the sample record, which has an image reference,
and one without. -/
def sampleBatch : List Attraction :=
  [sampleAttraction, { sampleAttraction with id := goStr "kaunas", url := ⟨[], false⟩ }]

/-- Image operations under which every request fails. -/
def failingOps : ImageOps Nat :=
  { httpGet := fun _ _ => none, decode := fun _ => none, resize := fun img => img,
    crop := fun _ => none }

/-! ## The bigram intersection, in the words of the specification -/

/-- All the length-2 substrings of `s`: `s[i:i+2]` for every byte index `i` from
0 to `len(s)-2`. -/
def substrings2 (s : GoString) : List GoString :=
  (List.range (s.length - 1)).map (fun i => (s.take (i + 2)).drop i)

/-- The number of occurrences of `x` in the list `l`. -/
def occurrences (x : GoString) (l : List GoString) : Nat :=
  (l.filter (fun y => decide (y = x))).length

/-- The multiset intersection size of the bigrams of `a` and `b`: the sum, over
every length-2 substring `x`, of the smaller of its numbers of occurrences
among the length-2 substrings of `a` and among those of `b`. -/
def bigramIntersection (a b : GoString) : Nat :=
  (((substrings2 a ++ substrings2 b).dedup).map
    (fun x => min (occurrences x (substrings2 a)) (occurrences x (substrings2 b)))).sum

/-! ## attraction.go: wrap -/

/-- Go's `unicode.IsSpace`: the code points with the Unicode White Space
property. -/
def isSpace (r : Nat) : Bool :=
  decide (r ∈ [0x09, 0x0A, 0x0B, 0x0C, 0x0D, 0x20, 0x85, 0xA0, 0x1680, 0x2028, 0x2029, 0x202F,
      0x205F, 0x3000])
    || decide (0x2000 ≤ r ∧ r ≤ 0x200A)

/-- Go's `strings.TrimSpace(s)`: `s` without its leading and trailing white
space code points. -/
def TrimSpace (s : GoString) : GoString :=
  ((((runesOf s).dropWhile (fun p => isSpace p.1)).reverse.dropWhile
    (fun p => isSpace p.1)).reverse).flatMap (fun p => p.2)

/-- The function `createNullString(str string) sql.NullString` of `utils.go`. -/
def createNullString (str : GoString) : NullString :=
  if str.length = 0 then ⟨[], false⟩ else ⟨str, true⟩

/-- The field `Hours` of the field `Description` of `RawAttraction`. -/
structure RawHours where
  Wkd : GoString
  Std : GoString
  Snd : GoString
  deriving DecidableEq

/-- The field `Description` of `RawAttraction`. -/
structure RawDescription where
  Name : GoString
  Hours : RawHours
  Info : GoString
  deriving DecidableEq

/-- The field `Coordinates` of the field `Location` of `RawAttraction`; the two
`float32` values are kept as rationals. -/
structure RawCoordinates where
  Latitude : ℚ
  Longitude : ℚ
  deriving DecidableEq

/-- The field `Location` of `RawAttraction`. -/
structure RawLocation where
  City : GoString
  Coordinates : RawCoordinates
  deriving DecidableEq

/-- The field `Image` of `RawAttraction`. -/
structure RawImage where
  Url : GoString
  Copyright : GoString
  deriving DecidableEq

/-- The struct `RawAttraction` of `attraction.go`. -/
structure RawAttraction where
  Category : GoString
  Description : RawDescription
  Location : RawLocation
  Image : RawImage
  deriving DecidableEq

/-- The two calls of `json.Marshal` in `wrap`, on the location and on the
description. -/
structure JsonMarshal where
  location : RawLocation → GoString
  description : RawDescription → GoString

/-- The method `(ra *RawAttraction) wrap() Attraction` of `attraction.go`.  The id
is computed from the name as submitted; the name is then replaced by
`strings.TrimSpace` of itself, and it is this name that is marshalled with the
description and stored in the record. -/
def wrap (tbl : Nat → Nat) (json : JsonMarshal) (ra : RawAttraction) : Attraction :=
  let id := toID tbl ra.Description.Name
  let ra1 : RawAttraction :=
    { ra with Description := { ra.Description with Name := TrimSpace ra.Description.Name } }
  let location := json.location ra1.Location
  let description := json.description ra1.Description
  { id := id, category := ra1.Category, description := description, location := location,
    name := ra1.Description.Name, url := createNullString ra1.Image.Url,
    copyright := createNullString ra1.Image.Copyright }

/-! ## db.go: commitTitles and commitAttraction -/

/-- The function `commitTitles(connection, titles ...Title) error` of `db.go`, on
the `titles` table of the connection. -/
def commitTitles (t : Table) (titles : List Title) (fault : GoError) : Table × GoError :=
  execInsert t ["compare", "display"]
    (titles.map (fun title => [SqlValue.text title.compare, SqlValue.text title.display])) fault

/-- The outcome of the storage calls of `commitAttraction` that the tables do
not decide: the error, if any, of `Begin`, of the INSERT into `destinations`,
of the INSERT into `titles` and of `Commit`. -/
structure TxFaults where
  beginErr : GoError
  insertErr : GoError
  titlesErr : GoError
  commitErr : GoError

/-- A transaction without storage faults. -/
def noTxFaults : TxFaults := ⟨none, none, none, none⟩

/-- The method `(s *Server) commitAttraction(a *Attraction) error` of `db.go`;
`s.connection` is the connection to the cache.  A failed statement rolls the
transaction back, and so does a failed `Commit`: the cache is then as before. -/
def commitAttraction (w : World) (f : TxFaults) (a : Attraction) : World × GoError :=
  match f.beginErr with
  | some e => (w, some e)
  | none =>
    let inserted := execInsert (w cachePath).destinations
      ["id", "category", "description", "location", "url", "copyright"]
      [[SqlValue.text a.id, SqlValue.text a.category, SqlValue.text a.description,
        SqlValue.text a.location, a.url.value, a.copyright.value]] f.insertErr
    match inserted.2 with
    | some e => (w, some e)
    | none =>
      let titled := commitTitles (w cachePath).titles [⟨a.id, a.name⟩] f.titlesErr
      match titled.2 with
      | some e => (w, some e)
      | none =>
        match f.commitErr with
        | some e => (w, some e)
        | none => (w.set cachePath { destinations := inserted.1, titles := titled.1 }, none)

/-! ## More sample data -/

/-- A cache whose tables have the columns named by the INSERT statements of
`commitAttraction` and `commitTitles`, in that order, and no rows. -/
def freshCache : Database :=
  { destinations :=
      { columns := ["id", "category", "description", "location", "url", "copyright"], rows := [] },
    titles := { columns := ["compare", "display"], rows := [] } }

/-- The fresh cache at its path and the external database at every other path. -/
def freshWorld : World := fun p => if p = cachePath then freshCache else sampleTarget

/-- A submission whose name starts with a space. -/
def sampleRaw : RawAttraction :=
  { Category := goStr "heritage",
    Description :=
      { Name := goStr " Vilnius", Hours := ⟨goStr "10:00-18:00", goStr "10:00-18:00", goStr "10:00-16:00"⟩,
        Info := goStr "The old town of the capital, with its towers." },
    Location := { City := goStr "Vilnius", Coordinates := ⟨5468 / 100, 2528 / 100⟩ },
    Image := { Url := goStr "http://example.org/v.jpg", Copyright := [] } }

/-- A stand-in for `json.Marshal` that writes both values as "d" and "l". -/
def sampleJson : JsonMarshal :=
  { location := fun _ => goStr "l", description := fun _ => goStr "d" }

/-- A cache whose `destinations` table has its columns in the order in which
`readCache` scans them, and no rows. -/
def scanOrderCache : Database :=
  { destinations :=
      { columns := ["id", "category", "location", "description", "copyright", "url"], rows := [] },
    titles := { columns := ["compare", "display"], rows := [] } }

/-- The cache in scan order at its path and the external database at every
other path. -/
def scanOrderWorld : World := fun p => if p = cachePath then scanOrderCache else sampleTarget

/-! ## Theorems -/

/-! ### float32 rounding -/

theorem round32_zero : round32 0 = 0 := by simp [round32]

theorem log2_bounds (x : ℚ) (hx : 0 < x) :
    (2 : ℚ) ^ (Int.log 2 x) ≤ x ∧ x < (2 : ℚ) ^ (Int.log 2 x + 1) := by
  have h1 := @Int.zpow_log_le_self ℚ _ _ 2 x (by norm_num) hx
  have h2 := @Int.lt_zpow_succ_log_self ℚ _ _ 2 (by norm_num) x
  simp only [Nat.cast_ofNat] at h1 h2
  exact ⟨h1, h2⟩

theorem log2_eq (x : ℚ) (z : ℤ) (h1 : (2 : ℚ) ^ z ≤ x) (h2 : x < (2 : ℚ) ^ (z + 1)) :
    Int.log 2 x = z := by
  have hx : 0 < x := lt_of_lt_of_le (by positivity) h1
  have a1 : z ≤ Int.log 2 x := by
    have := (@Int.zpow_le_iff_le_log ℚ _ _ 2 (by norm_num) z x hx).mp
      (by simpa using h1)
    exact this
  have a2 : Int.log 2 x < z + 1 := by
    have := (@Int.lt_zpow_iff_log_lt ℚ _ _ 2 (by norm_num) (z + 1) x hx).mp
      (by simpa using h2)
    exact this
  omega

/-- The shape of a rounded positive value. -/
theorem round32_of_pos (x : ℚ) (hx : 0 < x) :
    ∃ c : ℤ, round32 x = (c : ℚ) * (2 : ℚ) ^ (Int.log 2 x - 23)
      ∧ ⌊x / (2 : ℚ) ^ (Int.log 2 x - 23)⌋ ≤ c
      ∧ c ≤ ⌊x / (2 : ℚ) ^ (Int.log 2 x - 23)⌋ + 1
      ∧ (x / (2 : ℚ) ^ (Int.log 2 x - 23) = (⌊x / (2 : ℚ) ^ (Int.log 2 x - 23)⌋ : ℚ) →
          c = ⌊x / (2 : ℚ) ^ (Int.log 2 x - 23)⌋) := by
  have hne : x ≠ 0 := ne_of_gt hx
  have habs : |x| = x := abs_of_pos hx
  have hnl : ¬ x < 0 := not_lt.mpr (le_of_lt hx)
  simp only [round32, if_neg hne, habs, if_neg hnl]
  by_cases hup : (decide (1 / 2 < x / (2 : ℚ) ^ (Int.log 2 x - 23)
        - (⌊x / (2 : ℚ) ^ (Int.log 2 x - 23)⌋ : ℚ))
      || (decide (x / (2 : ℚ) ^ (Int.log 2 x - 23)
        - (⌊x / (2 : ℚ) ^ (Int.log 2 x - 23)⌋ : ℚ) = 1 / 2)
        && decide (⌊x / (2 : ℚ) ^ (Int.log 2 x - 23)⌋ % 2 = 1))) = true
  · refine ⟨⌊x / (2 : ℚ) ^ (Int.log 2 x - 23)⌋ + 1, ?_, by omega, by omega, ?_⟩
    · rw [if_pos hup]; push_cast; ring
    · intro hint
      exfalso
      rw [hint] at hup
      simp at hup
      norm_num at hup
  · refine ⟨⌊x / (2 : ℚ) ^ (Int.log 2 x - 23)⌋, ?_, by omega, by omega, fun _ => rfl⟩
    rw [if_neg hup]

theorem mant_bounds (x : ℚ) (hx : 0 < x) :
    (2 : ℚ) ^ (23 : ℕ) ≤ x / (2 : ℚ) ^ (Int.log 2 x - 23)
      ∧ x / (2 : ℚ) ^ (Int.log 2 x - 23) < (2 : ℚ) ^ (24 : ℕ) := by
  obtain ⟨h1, h2⟩ := log2_bounds x hx
  have hpos : (0 : ℚ) < (2 : ℚ) ^ (Int.log 2 x - 23) := by positivity
  have e1 : (2 : ℚ) ^ (Int.log 2 x) = (2 : ℚ) ^ (23 : ℕ) * (2 : ℚ) ^ (Int.log 2 x - 23) := by
    rw [← zpow_natCast, ← zpow_add₀ (by norm_num : (2 : ℚ) ≠ 0)]
    congr 1; push_cast; ring
  have e2 : (2 : ℚ) ^ (Int.log 2 x + 1) = (2 : ℚ) ^ (24 : ℕ) * (2 : ℚ) ^ (Int.log 2 x - 23) := by
    rw [← zpow_natCast, ← zpow_add₀ (by norm_num : (2 : ℚ) ≠ 0)]
    congr 1; push_cast; ring
  constructor
  · rw [le_div_iff₀ hpos, ← e1]; exact h1
  · rw [div_lt_iff₀ hpos, ← e2]; exact h2

theorem round32_pos (x : ℚ) (hx : 0 < x) : 0 < round32 x := by
  obtain ⟨c, hc, hlo, -, -⟩ := round32_of_pos x hx
  have hm := (mant_bounds x hx).1
  have hfl : (2 : ℤ) ^ (23 : ℕ) ≤ ⌊x / (2 : ℚ) ^ (Int.log 2 x - 23)⌋ := by
    apply Int.le_floor.mpr
    push_cast
    exact hm
  have hcpos : (0 : ℚ) < (c : ℚ) := by
    have : (0 : ℤ) < c := by
      have : (0 : ℤ) < (2 : ℤ) ^ (23 : ℕ) := by positivity
      omega
    exact_mod_cast this
  rw [hc]
  positivity

theorem log2_float (k : ℕ) (j : ℤ) (h1 : 2 ^ 23 ≤ k) (h2 : k < 2 ^ 24) :
    Int.log 2 ((k : ℚ) * (2 : ℚ) ^ j) = j + 23 := by
  have hpos : (0 : ℚ) < (2 : ℚ) ^ j := by positivity
  apply log2_eq
  · have e1 : (2 : ℚ) ^ (j + 23) = (2 : ℚ) ^ (23 : ℕ) * (2 : ℚ) ^ j := by
      rw [← zpow_natCast, ← zpow_add₀ (by norm_num : (2 : ℚ) ≠ 0)]
      congr 1; push_cast; ring
    rw [e1]
    have : ((2 : ℚ) ^ (23 : ℕ)) ≤ (k : ℚ) := by exact_mod_cast h1
    exact mul_le_mul_of_nonneg_right this (le_of_lt hpos)
  · have e2 : (2 : ℚ) ^ (j + 23 + 1) = (2 : ℚ) ^ (24 : ℕ) * (2 : ℚ) ^ j := by
      rw [← zpow_natCast, ← zpow_add₀ (by norm_num : (2 : ℚ) ≠ 0)]
      congr 1; push_cast; ring
    rw [e2]
    have : (k : ℚ) < ((2 : ℚ) ^ (24 : ℕ)) := by exact_mod_cast h2
    exact mul_lt_mul_of_pos_right this hpos

theorem log2_mono (x y : ℚ) (hx : 0 < x) (hxy : x ≤ y) : Int.log 2 x ≤ Int.log 2 y :=
  Int.log_mono_right hx hxy

/-- Rounding does not go below a `float32` value that the argument reaches. -/
theorem le_round32 (k : ℕ) (j : ℤ) (h1 : 2 ^ 23 ≤ k) (h2 : k < 2 ^ 24) (x : ℚ)
    (hvx : (k : ℚ) * (2 : ℚ) ^ j ≤ x) : (k : ℚ) * (2 : ℚ) ^ j ≤ round32 x := by
  have hpj : (0 : ℚ) < (2 : ℚ) ^ j := by positivity
  have hkpos : (0 : ℚ) < (k : ℚ) := by
    have : 0 < k := lt_of_lt_of_le (by norm_num) h1
    exact_mod_cast this
  have hv : (0 : ℚ) < (k : ℚ) * (2 : ℚ) ^ j := by positivity
  have hx : 0 < x := lt_of_lt_of_le hv hvx
  have hlv := log2_float k j h1 h2
  have hmono := log2_mono _ _ hv hvx
  rw [hlv] at hmono
  obtain ⟨c, hc, hlo, -, -⟩ := round32_of_pos x hx
  rw [hc]
  rcases eq_or_lt_of_le hmono with he | he
  · rw [← he] at hlo ⊢
    have e0 : j + 23 - 23 = j := by ring
    rw [e0] at hlo ⊢
    have hk : (k : ℤ) ≤ ⌊x / (2 : ℚ) ^ j⌋ := by
      apply Int.le_floor.mpr
      rw [le_div_iff₀ hpj]
      exact_mod_cast hvx
    have hkc : (k : ℚ) ≤ (c : ℚ) := by
      have : (k : ℤ) ≤ c := le_trans hk hlo
      exact_mod_cast this
    exact mul_le_mul_of_nonneg_right hkc (le_of_lt hpj)
  · have hm := (mant_bounds x hx).1
    have hfl : (2 : ℤ) ^ (23 : ℕ) ≤ ⌊x / (2 : ℚ) ^ (Int.log 2 x - 23)⌋ := by
      apply Int.le_floor.mpr
      push_cast
      exact hm
    have hc23 : ((2 : ℚ) ^ (23 : ℕ)) ≤ (c : ℚ) := by
      have : (2 : ℤ) ^ (23 : ℕ) ≤ c := le_trans hfl hlo
      exact_mod_cast this
    have hpe : (0 : ℚ) < (2 : ℚ) ^ (Int.log 2 x - 23) := by positivity
    have step1 : (2 : ℚ) ^ (23 : ℕ) * (2 : ℚ) ^ (Int.log 2 x - 23) ≤ (c : ℚ) * (2 : ℚ) ^ (Int.log 2 x - 23) :=
      mul_le_mul_of_nonneg_right hc23 (le_of_lt hpe)
    have e1 : (2 : ℚ) ^ (23 : ℕ) * (2 : ℚ) ^ (Int.log 2 x - 23) = (2 : ℚ) ^ (Int.log 2 x) := by
      rw [← zpow_natCast, ← zpow_add₀ (by norm_num : (2 : ℚ) ≠ 0)]
      congr 1; push_cast; ring
    rw [e1] at step1
    have step2 : (2 : ℚ) ^ (j + 23 + 1) ≤ (2 : ℚ) ^ (Int.log 2 x) :=
      zpow_le_zpow_right₀ (by norm_num) (by omega)
    have step3 : (k : ℚ) * (2 : ℚ) ^ j < (2 : ℚ) ^ (j + 23 + 1) := by
      have e2 : (2 : ℚ) ^ (j + 23 + 1) = (2 : ℚ) ^ (24 : ℕ) * (2 : ℚ) ^ j := by
        rw [← zpow_natCast, ← zpow_add₀ (by norm_num : (2 : ℚ) ≠ 0)]
        congr 1; push_cast; ring
      rw [e2]
      have : (k : ℚ) < ((2 : ℚ) ^ (24 : ℕ)) := by exact_mod_cast h2
      exact mul_lt_mul_of_pos_right this hpj
    linarith

/-- Rounding does not go above a `float32` value that bounds the argument. -/
theorem round32_le (k : ℕ) (j : ℤ) (h1 : 2 ^ 23 ≤ k) (h2 : k < 2 ^ 24) (x : ℚ) (hx : 0 < x)
    (hxv : x ≤ (k : ℚ) * (2 : ℚ) ^ j) : round32 x ≤ (k : ℚ) * (2 : ℚ) ^ j := by
  have hpj : (0 : ℚ) < (2 : ℚ) ^ j := by positivity
  have hlv := log2_float k j h1 h2
  have hmono := log2_mono _ _ hx hxv
  rw [hlv] at hmono
  obtain ⟨c, hc, -, hhi, hint⟩ := round32_of_pos x hx
  rw [hc]
  rcases eq_or_lt_of_le hmono with he | he
  · rw [he] at hhi hint ⊢
    have e0 : j + 23 - 23 = j := by ring
    rw [e0] at hhi hint ⊢
    have hmk : x / (2 : ℚ) ^ j ≤ (k : ℚ) := by
      rw [div_le_iff₀ hpj]; exact hxv
    have hfk : ⌊x / (2 : ℚ) ^ j⌋ ≤ (k : ℤ) := by
      have := Int.floor_le (x / (2 : ℚ) ^ j)
      have h3 : ((⌊x / (2 : ℚ) ^ j⌋ : ℤ) : ℚ) ≤ ((k : ℤ) : ℚ) := by
        push_cast; linarith
      exact_mod_cast h3
    have hck : c ≤ (k : ℤ) := by
      rcases eq_or_lt_of_le hfk with hE | hL
      · have hmeq : x / (2 : ℚ) ^ j = ((⌊x / (2 : ℚ) ^ j⌋ : ℤ) : ℚ) := by
          apply le_antisymm
          · rw [hE]; push_cast; exact hmk
          · exact Int.floor_le _
        rw [hint hmeq, hE]
      · omega
    have : (c : ℚ) ≤ (k : ℚ) := by exact_mod_cast hck
    exact mul_le_mul_of_nonneg_right this (le_of_lt hpj)
  · have hm := (mant_bounds x hx).2
    have hfl : ⌊x / (2 : ℚ) ^ (Int.log 2 x - 23)⌋ < (2 : ℤ) ^ (24 : ℕ) := by
      apply Int.floor_lt.mpr
      push_cast
      exact hm
    have hc24 : (c : ℚ) ≤ ((2 : ℚ) ^ (24 : ℕ)) := by
      have : c ≤ (2 : ℤ) ^ (24 : ℕ) := by omega
      exact_mod_cast this
    have hpe : (0 : ℚ) < (2 : ℚ) ^ (Int.log 2 x - 23) := by positivity
    have step1 : (c : ℚ) * (2 : ℚ) ^ (Int.log 2 x - 23)
        ≤ (2 : ℚ) ^ (24 : ℕ) * (2 : ℚ) ^ (Int.log 2 x - 23) :=
      mul_le_mul_of_nonneg_right hc24 (le_of_lt hpe)
    have e1 : (2 : ℚ) ^ (24 : ℕ) * (2 : ℚ) ^ (Int.log 2 x - 23) = (2 : ℚ) ^ (Int.log 2 x + 1) := by
      rw [← zpow_natCast, ← zpow_add₀ (by norm_num : (2 : ℚ) ≠ 0)]
      congr 1; push_cast; ring
    rw [e1] at step1
    have step2 : (2 : ℚ) ^ (Int.log 2 x + 1) ≤ (2 : ℚ) ^ (j + 23) :=
      zpow_le_zpow_right₀ (by norm_num) (by omega)
    have step3 : (2 : ℚ) ^ (j + 23) ≤ (k : ℚ) * (2 : ℚ) ^ j := by
      have e2 : (2 : ℚ) ^ (j + 23) = (2 : ℚ) ^ (23 : ℕ) * (2 : ℚ) ^ j := by
        rw [← zpow_natCast, ← zpow_add₀ (by norm_num : (2 : ℚ) ≠ 0)]
        congr 1; push_cast; ring
      rw [e2]
      have : ((2 : ℚ) ^ (23 : ℕ)) ≤ (k : ℚ) := by exact_mod_cast h1
      exact mul_le_mul_of_nonneg_right this (le_of_lt hpj)
    linarith

/-- A `float32` value rounds to itself. -/
theorem round32_float (k : ℕ) (j : ℤ) (h1 : 2 ^ 23 ≤ k) (h2 : k < 2 ^ 24) :
    round32 ((k : ℚ) * (2 : ℚ) ^ j) = (k : ℚ) * (2 : ℚ) ^ j := by
  have hkpos : (0 : ℚ) < (k : ℚ) := by
    have : 0 < k := lt_of_lt_of_le (by norm_num) h1
    exact_mod_cast this
  have hv : (0 : ℚ) < (k : ℚ) * (2 : ℚ) ^ j := by positivity
  exact le_antisymm (round32_le k j h1 h2 _ hv le_rfl) (le_round32 k j h1 h2 _ le_rfl)

/-- A positive natural number up to 2^24, scaled by a power of two, is a
`float32` value. -/
theorem nat_is_float (N : ℕ) (s : ℤ) (h0 : 0 < N) (h : N ≤ 2 ^ 24) :
    ∃ k : ℕ, ∃ j : ℤ, 2 ^ 23 ≤ k ∧ k < 2 ^ 24 ∧ (N : ℚ) * (2 : ℚ) ^ s = (k : ℚ) * (2 : ℚ) ^ j := by
  rcases eq_or_lt_of_le h with hE | hL
  · refine ⟨2 ^ 23, s + 1, le_rfl, by norm_num, ?_⟩
    rw [hE, zpow_add₀ (by norm_num : (2 : ℚ) ≠ 0)]
    push_cast
    ring
  · have hlo : 2 ^ Nat.log 2 N ≤ N := Nat.pow_log_le_self 2 (Nat.pos_iff_ne_zero.mp h0)
    have hhi : N < 2 ^ (Nat.log 2 N + 1) := Nat.lt_pow_succ_log_self (by norm_num) N
    have hL23 : Nat.log 2 N ≤ 23 := by
      by_contra hcon
      have h24 : 24 ≤ Nat.log 2 N := by omega
      have : 2 ^ 24 ≤ 2 ^ Nat.log 2 N := Nat.pow_le_pow_right (by norm_num) h24
      omega
    obtain ⟨t, ht⟩ : ∃ t, Nat.log 2 N + t = 23 := ⟨23 - Nat.log 2 N, by omega⟩
    refine ⟨N * 2 ^ t, s - t, ?_, ?_, ?_⟩
    · calc 2 ^ 23 = 2 ^ Nat.log 2 N * 2 ^ t := by rw [← pow_add, ht]
        _ ≤ N * 2 ^ t := Nat.mul_le_mul_right _ hlo
    · calc N * 2 ^ t < 2 ^ (Nat.log 2 N + 1) * 2 ^ t :=
            Nat.mul_lt_mul_of_pos_right hhi (by positivity)
        _ = 2 ^ 24 := by rw [← pow_add]; congr 1; omega
    · rw [zpow_sub₀ (by norm_num : (2 : ℚ) ≠ 0)]
      push_cast
      rw [zpow_natCast]
      field_simp
      ring

theorem round32_nat_zpow (N : ℕ) (s : ℤ) (h : N ≤ 2 ^ 24) :
    round32 ((N : ℚ) * (2 : ℚ) ^ s) = (N : ℚ) * (2 : ℚ) ^ s := by
  rcases Nat.eq_zero_or_pos N with h0 | h0
  · subst h0; simp [round32_zero]
  · obtain ⟨k, j, h1, h2, he⟩ := nat_is_float N s h0 h
    rw [he]
    exact round32_float k j h1 h2

theorem round32_nat (N : ℕ) (h : N ≤ 2 ^ 24) : round32 (N : ℚ) = (N : ℚ) := by
  have := round32_nat_zpow N 0 h
  simpa using this

/-- The tie at 2^24 + 1 goes to the even mantissa: the counter stays at 2^24. -/
theorem round32_tie : round32 ((2 : ℚ) ^ (24 : ℕ) + 1) = (2 : ℚ) ^ (24 : ℕ) := by
  have hlog : Int.log 2 ((2 : ℚ) ^ (24 : ℕ) + 1) = 24 := by
    apply log2_eq
    · norm_num
    · norm_num
  have hne : ((2 : ℚ) ^ (24 : ℕ) + 1) ≠ 0 := by norm_num
  have habs : |((2 : ℚ) ^ (24 : ℕ) + 1)| = (2 : ℚ) ^ (24 : ℕ) + 1 := abs_of_pos (by norm_num)
  have hnl : ¬ ((2 : ℚ) ^ (24 : ℕ) + 1) < 0 := by norm_num
  simp only [round32, if_neg hne, habs, if_neg hnl, hlog]
  have hdiv : ((2 : ℚ) ^ (24 : ℕ) + 1) / (2 : ℚ) ^ ((24 : ℤ) - 23) = 8388608 + 1 / 2 := by
    norm_num
  have hfloor : ⌊(8388608 : ℚ) + 1 / 2⌋ = 8388608 := by
    rw [Int.floor_eq_iff]
    constructor <;> norm_num
  rw [hdiv, hfloor]
  norm_num

theorem round32_nonneg (x : ℚ) (hx : 0 ≤ x) : 0 ≤ round32 x := by
  rcases eq_or_lt_of_le hx with h | h
  · rw [← h, round32_zero]
  · exact le_of_lt (round32_pos x h)

theorem round32_le_one (x : ℚ) (hx : 0 ≤ x) (h1 : x ≤ 1) : round32 x ≤ 1 := by
  rcases eq_or_lt_of_le hx with h | h
  · rw [← h, round32_zero]; norm_num
  · have := round32_le (2 ^ 23) (-23) le_rfl (by norm_num) x h (by norm_num; exact h1)
    norm_num at this
    exact this
theorem rangeFrom_index_bound (k i : Nat) (s : GoString) :
    ∀ p ∈ rangeFrom k i s, i ≤ p.1 ∧ p.1 < i + s.length := by
  induction s generalizing k i with
  | nil => intro p hp; simp [rangeFrom] at hp
  | cons b rest ih =>
    intro p hp
    cases k with
    | zero =>
      simp only [rangeFrom, List.mem_cons] at hp
      rcases hp with rfl | hp
      · simp
      · have := ih _ _ p hp
        simp only [List.length_cons]; omega
    | succ k =>
      simp only [rangeFrom] at hp
      have := ih _ _ p hp
      simp only [List.length_cons]; omega

theorem rangeFrom_length_le (k i : Nat) (s : GoString) :
    (rangeFrom k i s).length ≤ s.length := by
  induction s generalizing k i with
  | nil => simp [rangeFrom]
  | cons b rest ih =>
    cases k with
    | zero => simp only [rangeFrom, List.length_cons]; have := ih ((decodeRune (b :: rest)).2 - 1) (i + 1); omega
    | succ k => simp only [rangeFrom, List.length_cons]; have := ih k (i + 1); omega

theorem slice_bigram (s : GoString) (i : Nat) (h : i + 2 ≤ s.length) :
    slice s (i : Int) ((i : Int) + 2) = .ok ((s.take (i + 2)).drop i) := by
  unfold slice
  have h1 : (0 : Int) ≤ (i : Int) ∧ (i : Int) ≤ (i : Int) + 2 ∧ (i : Int) + 2 ≤ (s.length : Int) := by
    omega
  rw [if_pos h1]
  have h2 : ((i : Int) + 2).toNat = i + 2 := by omega
  simp [h2]

theorem countBigrams_ok (a : GoString) (idx : List (Nat × Nat)) (m : BigramMap)
    (h : ∀ p ∈ idx, p.1 + 2 ≤ a.length) :
    countBigrams a idx m
      = .ok (fun k => m k + (Multiset.count k
          (↑(idx.map (fun p => (a.take (p.1 + 2)).drop p.1)) : Multiset GoString) : Int)) := by
  induction idx generalizing m with
  | nil => simp [countBigrams]
  | cons p idx ih =>
    obtain ⟨i, c⟩ := p
    have hi : i + 2 ≤ a.length := h (i, c) (by simp)
    simp only [countBigrams, slice_bigram a i hi]
    rw [ih _ (fun q hq => h q (List.mem_cons_of_mem _ hq))]
    congr 1
    funext k
    simp only [List.map_cons, ← Multiset.cons_coe]
    by_cases hk : k = (a.take (i + 2)).drop i
    · subst hk
      simp only [if_true, Multiset.count_cons_self]
      push_cast
      omega
    · simp only [if_neg hk, Multiset.count_cons_of_ne hk]

theorem incr32_sat (n : Nat) :
    round32 (((min n (2 ^ 24) : Nat) : ℚ) + 1) = ((min (n + 1) (2 ^ 24) : Nat) : ℚ) := by
  by_cases h : n < 2 ^ 24
  · have h1 : min n (2 ^ 24) = n := Nat.min_eq_left (le_of_lt h)
    have h2 : min (n + 1) (2 ^ 24) = n + 1 := Nat.min_eq_left h
    rw [h1, h2]
    have := round32_nat (n + 1) h
    push_cast at this ⊢
    exact this
  · have h1 : min n (2 ^ 24) = 2 ^ 24 := Nat.min_eq_right (not_lt.mp h)
    have h2 : min (n + 1) (2 ^ 24) = 2 ^ 24 := Nat.min_eq_right (by omega)
    rw [h1, h2]
    have := round32_tie
    push_cast at this ⊢
    exact this

theorem scanBigrams_ok (b : GoString) (idx : List (Nat × Nat)) (m : BigramMap) (n : Nat)
    (M : Multiset GoString) (hm : ∀ k, m k = (M.count k : Int))
    (h : ∀ p ∈ idx, p.1 + 2 ≤ b.length) :
    scanBigrams b idx m ((min n (2 ^ 24) : Nat) : ℚ)
      = .ok ((min (n + Multiset.card
          ((↑(idx.map (fun p => (b.take (p.1 + 2)).drop p.1)) : Multiset GoString) ∩ M))
          (2 ^ 24) : Nat) : ℚ) := by
  induction idx generalizing m n M with
  | nil => simp [scanBigrams]
  | cons p idx ih =>
    obtain ⟨i, c⟩ := p
    have hi : i + 2 ≤ b.length := h (i, c) (by simp)
    have hrest : ∀ q ∈ idx, q.1 + 2 ≤ b.length := fun q hq => h q (List.mem_cons_of_mem _ hq)
    simp only [scanBigrams, slice_bigram b i hi, List.map_cons, ← Multiset.cons_coe]
    by_cases hpos : m ((b.take (i + 2)).drop i) > 0
    · rw [if_pos hpos]
      have hmem : (b.take (i + 2)).drop i ∈ M := by
        rw [hm] at hpos
        exact Multiset.count_pos.mp (by exact_mod_cast hpos)
      rw [Multiset.cons_inter_of_pos _ hmem, Multiset.card_cons, incr32_sat]
      rw [ih _ (n + 1) (M.erase ((b.take (i + 2)).drop i)) _ hrest]
      · congr 3; omega
      · intro k
        by_cases hk : k = (b.take (i + 2)).drop i
        · subst hk
          have hc : 0 < M.count ((b.take (i + 2)).drop i) := Multiset.count_pos.mpr hmem
          simp only [if_true, hm, Multiset.count_erase_self]
          omega
        · simp only [if_neg hk, hm, Multiset.count_erase_of_ne hk]
    · rw [if_neg hpos]
      have hmem : (b.take (i + 2)).drop i ∉ M := by
        intro hin
        apply hpos
        rw [hm]
        exact_mod_cast Multiset.count_pos.mpr hin
      rw [Multiset.cons_inter_of_neg _ hmem]
      exact ih m n M hm hrest

theorem bigramsOf_index_ok (s : GoString) :
    ∀ p ∈ rangeString (s.take (s.length - 1)), p.1 + 2 ≤ s.length := by
  intro p hp
  have h := (rangeFrom_index_bound 0 0 _ p hp).2
  simp only [List.length_take] at h
  omega

theorem bigramsOf_length_le (s : GoString) : (bigramsOf s).length ≤ s.length - 1 := by
  unfold bigramsOf rangeString
  rw [List.length_map]
  have := rangeFrom_length_le 0 0 (s.take (s.length - 1))
  simp only [List.length_take] at this
  omega

theorem slice_init (s : GoString) (h : s ≠ []) :
    slice s 0 ((s.length : Int) - 1) = .ok (s.take (s.length - 1)) := by
  have hl : 0 < s.length := List.length_pos.mpr h
  unfold slice
  have h1 : (0 : Int) ≤ 0 ∧ (0 : Int) ≤ (s.length : Int) - 1 ∧ (s.length : Int) - 1 ≤ (s.length : Int) := by
    omega
  rw [if_pos h1]
  have h2 : ((s.length : Int) - 1).toNat = s.length - 1 := by omega
  simp [h2]

theorem slice_init_nil : slice ([] : GoString) 0 (((([] : GoString).length : Nat) : Int) - 1)
    = .error "slice bounds out of range" := by
  simp [slice]

theorem round32_two_mul_sat (n : Nat) :
    round32 (2 * ((min n (2 ^ 24) : Nat) : ℚ)) = 2 * ((min n (2 ^ 24) : Nat) : ℚ) := by
  have := round32_nat_zpow (min n (2 ^ 24)) 1 (Nat.min_le_right _ _)
  rw [zpow_one] at this
  rw [mul_comm]
  exact this

/-- On two different non-empty strings `compareID` returns the `float32`
quotient of twice the number of shared bigrams, counted up to 2^24, and
`float32(len(a) + len(b) - 2)`. -/
theorem compareID_eq (a b : GoString) (hab : a ≠ b) (ha : a ≠ []) (hb : b ≠ []) :
    compareID a b
      = .ok (GoFloat.div (2 * ((min (sharedBigrams a b) (2 ^ 24) : Nat) : ℚ))
          (round32 ((((a.length : Int) + (b.length : Int) - 2 : Int)) : ℚ))) := by
  unfold compareID
  simp only [if_neg hab, slice_init a ha, slice_init b hb]
  rw [countBigrams_ok a _ _ (bigramsOf_index_ok a)]
  simp only
  have h0 : (0 : ℚ) = ((min 0 (2 ^ 24) : Nat) : ℚ) := by simp
  rw [h0, scanBigrams_ok b _ _ 0 (↑(bigramsOf a)) (by intro k; simp [bigramsOf])
    (bigramsOf_index_ok b)]
  simp only [round32_two_mul_sat, sharedBigrams, bigramsOf, Nat.zero_add, Multiset.inter_comm]

/-- On two different strings of which one is empty `compareID` panics. -/
theorem compareID_panics (a b : GoString) (hab : a ≠ b) (h : a = [] ∨ b = []) :
    compareID a b = .error "slice bounds out of range" := by
  unfold compareID
  simp only [if_neg hab]
  by_cases ha : a = []
  · subst ha
    rw [slice_init_nil]
  · have hb : b = [] := h.resolve_left ha
    subst hb
    simp only [slice_init a ha]
    rw [countBigrams_ok a _ _ (bigramsOf_index_ok a)]
    simp only
    rw [slice_init_nil]

theorem sharedBigrams_comm (a b : GoString) : sharedBigrams a b = sharedBigrams b a := by
  unfold sharedBigrams
  rw [Multiset.inter_comm]

theorem sharedBigrams_le_left (a b : GoString) : sharedBigrams a b ≤ a.length - 1 := by
  unfold sharedBigrams
  calc Multiset.card ((↑(bigramsOf a) : Multiset GoString) ∩ ↑(bigramsOf b))
      ≤ Multiset.card (↑(bigramsOf a) : Multiset GoString) :=
        Multiset.card_le_card (Multiset.inter_le_left _ _)
    _ = (bigramsOf a).length := Multiset.coe_card _
    _ ≤ a.length - 1 := bigramsOf_length_le a

theorem sharedBigrams_le_right (a b : GoString) : sharedBigrams a b ≤ b.length - 1 := by
  rw [sharedBigrams_comm]
  exact sharedBigrams_le_left b a


theorem goFloat_div_pos_den (x y : ℚ) (hy : 0 < y) :
    GoFloat.div x y = .num (round32 (x / y)) := by
  unfold GoFloat.div
  rw [if_neg (ne_of_gt hy)]

theorem compareID_score (a b : GoString) (hab : a ≠ b) (ha : a ≠ []) (hb : b ≠ [])
    (hlen : 2 < a.length + b.length) :
    compareID a b
      = .ok (.num (score32 (sharedBigrams a b) ((a.length : Int) + (b.length : Int) - 2))) := by
  have hd : (0 : ℚ) < ((((a.length : Int) + (b.length : Int) - 2 : Int)) : ℚ) := by
    have : (0 : Int) < (a.length : Int) + (b.length : Int) - 2 := by omega
    exact_mod_cast this
  rw [compareID_eq a b hab ha hb, goFloat_div_pos_den _ _ (round32_pos _ hd)]
  rfl

theorem score32_bounds (shared : Nat) (d : Int) (hd : 0 < d) (hs : 2 * (shared : Int) ≤ d) :
    0 ≤ score32 shared d ∧ score32 shared d ≤ 1 := by
  have hdq : (0 : ℚ) < (d : ℚ) := by exact_mod_cast hd
  have hr : 0 < round32 (d : ℚ) := round32_pos _ hdq
  have hnum : (0 : ℚ) ≤ 2 * ((min shared (2 ^ 24) : Nat) : ℚ) := by positivity
  have hle : 2 * ((min shared (2 ^ 24) : Nat) : ℚ) ≤ round32 (d : ℚ) := by
    rcases Nat.eq_zero_or_pos (min shared (2 ^ 24)) with h0 | h0
    · rw [h0]; simp; exact le_of_lt hr
    · obtain ⟨k, j, h1, h2, he⟩ := nat_is_float (min shared (2 ^ 24)) 1 h0 (Nat.min_le_right _ _)
      rw [zpow_one] at he
      have hsd : ((min shared (2 ^ 24) : Nat) : ℚ) * 2 ≤ (d : ℚ) := by
        have h3 : min shared (2 ^ 24) ≤ shared := Nat.min_le_left _ _
        have h4 : ((min shared (2 ^ 24) : Nat) : Int) * 2 ≤ d := by omega
        exact_mod_cast h4
      rw [mul_comm, he]
      rw [he] at hsd
      exact le_round32 k j h1 h2 _ hsd
  unfold score32
  constructor
  · exact round32_nonneg _ (div_nonneg hnum (le_of_lt hr))
  · exact round32_le_one _ (div_nonneg hnum (le_of_lt hr)) ((div_le_one hr).mpr hle)

theorem score32_zero (d : Int) : score32 0 d = 0 := by
  simp [score32, round32_zero]

/-- The score of two different strings of at least two bytes each is
`score32`, the `float32` quotient of twice the number of shared bigrams and
`len(a) + len(b) - 2`, and lies between 0 and 1. -/
theorem compareID_unit_interval (a b : GoString) (hab : a ≠ b)
    (ha : 2 ≤ a.length) (hb : 2 ≤ b.length) :
    compareID a b
        = .ok (.num (score32 (sharedBigrams a b) ((a.length : Int) + (b.length : Int) - 2)))
      ∧ 0 ≤ score32 (sharedBigrams a b) ((a.length : Int) + (b.length : Int) - 2)
      ∧ score32 (sharedBigrams a b) ((a.length : Int) + (b.length : Int) - 2) ≤ 1 := by
  have hane : a ≠ [] := by intro h; subst h; simp at ha
  have hbne : b ≠ [] := by intro h; subst h; simp at hb
  have h1 : sharedBigrams a b ≤ a.length - 1 := sharedBigrams_le_left a b
  have h2 : sharedBigrams a b ≤ b.length - 1 := sharedBigrams_le_right a b
  have hb2 := score32_bounds (sharedBigrams a b) ((a.length : Int) + (b.length : Int) - 2)
    (by omega) (by omega)
  exact ⟨compareID_score a b hab hane hbne (by omega), hb2.1, hb2.2⟩

/-- The calls `compareID(a, b)` and `compareID(b, a)` have the same outcome for
all strings `a` and `b`: both panic, or both return the same `float32` value,
NaN counted as a value. -/
theorem compareID_symmetric (a b : GoString) : compareID a b = compareID b a := by
  by_cases hab : a = b
  · subst hab; rfl
  · have hba : b ≠ a := fun h => hab h.symm
    by_cases he : a = [] ∨ b = []
    · rw [compareID_panics a b hab he, compareID_panics b a hba he.symm]
    · have ha : a ≠ [] := fun h => he (Or.inl h)
      have hb : b ≠ [] := fun h => he (Or.inr h)
      rw [compareID_eq a b hab ha hb, compareID_eq b a hba hb ha, sharedBigrams_comm a b,
        add_comm (a.length : Int) (b.length : Int)]

/-- Two non-empty strings that are different, or equal, and are not both of
one byte, get the same number in both orders, so Go's `==` holds between the
two results. -/
theorem compareID_symmetric_number (a b : GoString) (ha : a ≠ []) (hb : b ≠ [])
    (hlen : 2 < a.length + b.length) :
    ∃ q : ℚ, compareID a b = .ok (.num q) ∧ compareID b a = .ok (.num q)
      ∧ GoFloat.eq (.num q) (.num q) = true := by
  by_cases hab : a = b
  · subst hab
    exact ⟨1, by simp [compareID], by simp [compareID], by simp [GoFloat.eq]⟩
  · refine ⟨_, compareID_score a b hab ha hb hlen, ?_, by simp [GoFloat.eq]⟩
    rw [compareID_score b a (fun h => hab h.symm) hb ha (by omega), sharedBigrams_comm b a,
      add_comm (b.length : Int) (a.length : Int)]

/-- C4: `compareID(a, b) == compareID(b, a)` is false for the one-byte strings
"x" and "y": both calls compute 2*0/float32(1+1-2) = 0/0 = NaN, and Go's `==`
does not hold between two NaN. -/
theorem compareID_nan_not_symmetric :
    compareID (goStr "x") (goStr "y") = .ok .nan
      ∧ compareID (goStr "y") (goStr "x") = .ok .nan
      ∧ GoFloat.eq .nan .nan = false := by
  have key : ∀ a b : GoString, a ≠ b → a ≠ [] → b ≠ [] → sharedBigrams a b = 0 →
      a.length = 1 → b.length = 1 → compareID a b = .ok .nan := by
    intro a b hab ha hb hs hla hlb
    rw [compareID_eq a b hab ha hb, hs, hla, hlb]
    simp [GoFloat.div, round32_zero]
  exact ⟨key _ _ (by decide) (by decide) (by decide) (by decide) (by decide) (by decide),
    key _ _ (by decide) (by decide) (by decide) (by decide) (by decide) (by decide), rfl⟩

/-- When one of two strings has exactly one byte and the other at least two,
`compareID` returns 0. -/
theorem compareID_one_byte (a b : GoString) (ha : a.length = 1) (hb : 2 ≤ b.length) :
    compareID a b = .ok (.num 0) ∧ compareID b a = .ok (.num 0) := by
  have hab : a ≠ b := by intro h; rw [h] at ha; omega
  have hane : a ≠ [] := by intro h; subst h; simp at ha
  have hbne : b ≠ [] := by intro h; subst h; simp at hb
  have hs : sharedBigrams a b = 0 := by
    have := sharedBigrams_le_left a b
    omega
  constructor
  · rw [compareID_score a b hab hane hbne (by omega), hs, score32_zero]
  · rw [compareID_score b a (fun h => hab h.symm) hbne hane (by omega), sharedBigrams_comm, hs,
      score32_zero]

/-- C5: `compareID` does not always return a number between 0 and 1: on the
one-byte strings "x" and "y" the division is 0/0 and the result is NaN, and on
"" and "x" the call panics in `a[:lena-1]`. -/
theorem compareID_outside_unit_interval :
    compareID (goStr "x") (goStr "y") = .ok .nan
      ∧ compareID (goStr "") (goStr "x") = .error "slice bounds out of range" := by
  refine ⟨?_, ?_⟩
  · rw [compareID_eq _ _ (by decide) (by decide) (by decide)]
    have h : sharedBigrams (goStr "x") (goStr "y") = 0 := by decide
    have hl1 : (goStr "x").length = 1 := by decide
    have hl2 : (goStr "y").length = 1 := by decide
    rw [h, hl1, hl2]
    simp [GoFloat.div, round32_zero]
  · exact compareID_panics _ _ (by decide) (Or.inl (by decide))

/-- C6: on different strings of which one is shorter than two bytes `compareID`
does not always return 0: with an empty argument the slice `s[:len(s)-1]` is
`s[:-1]` and the call panics, and on two one-byte strings the denominator
`lena+lenb-2` is 0 and the result is NaN. -/
theorem compareID_short_inputs :
    compareID (goStr "") (goStr "a") = .error "slice bounds out of range"
      ∧ compareID (goStr "a") (goStr "") = .error "slice bounds out of range"
      ∧ compareID (goStr "a") (goStr "b") = .ok .nan := by
  refine ⟨?_, ?_, ?_⟩
  · exact compareID_panics _ _ (by decide) (Or.inl (by decide))
  · exact compareID_panics _ _ (by decide) (Or.inr (by decide))
  · rw [compareID_eq _ _ (by decide) (by decide) (by decide)]
    have h : sharedBigrams (goStr "a") (goStr "b") = 0 := by decide
    have hl1 : (goStr "a").length = 1 := by decide
    have hl2 : (goStr "b").length = 1 := by decide
    rw [h, hl1, hl2]
    simp [GoFloat.div, round32_zero]

theorem rangeFrom_ascii (i : Nat) (s : GoString) (h : ∀ b ∈ s, b.toNat < 0x80) :
    (rangeFrom 0 i s).map (fun p => p.1) = List.range' i s.length := by
  induction s generalizing i with
  | nil => simp [rangeFrom]
  | cons b rest ih =>
    have hb : b.toNat < 0x80 := h b (by simp)
    have hd : decodeRune (b :: rest) = (b.toNat, 1) := by simp [decodeRune, hb]
    simp only [rangeFrom, hd, List.map_cons, Nat.sub_self, List.length_cons, List.range'_succ]
    rw [ih (i + 1) (fun c hc => h c (List.mem_cons_of_mem _ hc))]

/-- On an ASCII string the bigrams `compareID` collects are all its length-2
substrings `s[i:i+2]`, for `i` from 0 to `len(s)-2`. -/
theorem bigramsOf_ascii (s : GoString) (h : ∀ b ∈ s, b.toNat < 0x80) :
    bigramsOf s = (List.range (s.length - 1)).map (fun i => (s.take (i + 2)).drop i) := by
  unfold bigramsOf rangeString
  have h1 : ∀ b ∈ s.take (s.length - 1), b.toNat < 0x80 :=
    fun b hb => h b (List.mem_of_mem_take hb)
  have h2 := rangeFrom_ascii 0 (s.take (s.length - 1)) h1
  have h3 : (s.take (s.length - 1)).length = s.length - 1 := by
    rw [List.length_take]; omega
  rw [h3] at h2
  rw [List.range_eq_range', ← h2, List.map_map]
  rfl

theorem sharedBigrams_lt_of_ne (a b : GoString)
    (hne : (↑(bigramsOf a) : Multiset GoString) ≠ ↑(bigramsOf b)) :
    2 * sharedBigrams a b < (bigramsOf a).length + (bigramsOf b).length := by
  have hl : Multiset.card ((↑(bigramsOf a) : Multiset GoString) ∩ ↑(bigramsOf b))
      ≤ (bigramsOf a).length := by
    have := Multiset.card_le_card
      (Multiset.inter_le_left (↑(bigramsOf a) : Multiset GoString) ↑(bigramsOf b))
    simpa using this
  have hr : Multiset.card ((↑(bigramsOf a) : Multiset GoString) ∩ ↑(bigramsOf b))
      ≤ (bigramsOf b).length := by
    have := Multiset.card_le_card
      (Multiset.inter_le_right (↑(bigramsOf a) : Multiset GoString) ↑(bigramsOf b))
    simpa using this
  unfold sharedBigrams
  by_contra hcon
  have h1 : Multiset.card ((↑(bigramsOf a) : Multiset GoString) ∩ ↑(bigramsOf b))
      = (bigramsOf a).length := by omega
  have h2 : Multiset.card ((↑(bigramsOf a) : Multiset GoString) ∩ ↑(bigramsOf b))
      = (bigramsOf b).length := by omega
  have e1 : (↑(bigramsOf a) : Multiset GoString) ∩ ↑(bigramsOf b) = ↑(bigramsOf a) :=
    Multiset.eq_of_le_of_card_le (Multiset.inter_le_left _ _) (by rw [h1, Multiset.coe_card])
  have e2 : (↑(bigramsOf a) : Multiset GoString) ∩ ↑(bigramsOf b) = ↑(bigramsOf b) :=
    Multiset.eq_of_le_of_card_le (Multiset.inter_le_right _ _) (by rw [h2, Multiset.coe_card])
  exact hne (e1.symm.trans e2)

theorem matchRune_regex_iff (c : Nat) :
    matchRune regex_lith_chars_spaces c = decide (c ∈ strippedRunes) := by
  rw [Bool.eq_iff_iff]
  simp only [matchRune, regex_lith_chars_spaces, strippedRunes, List.any_cons, List.any_nil,
    Bool.or_false, Bool.or_eq_true, decide_eq_true_eq, List.mem_cons, List.mem_singleton,
    List.not_mem_nil, or_false]
  omega

theorem replaceAllString_eq_removeRunes (s : GoString) :
    ReplaceAllString regex_lith_chars_spaces s = removeRunes strippedRunes s := by
  unfold ReplaceAllString removeRunes
  congr 1
  apply List.filter_congr
  intro p _
  rw [matchRune_regex_iff]
  simp

/-- The function `toID` first removes the code points that the expression
matches, the space and Ą ą Č č Ė ė Ę ę Į į Š š Ū ū Ų ų ž ſ, and then
lower-cases what is left; `toID("Šis Yra Pavadinimas") = "isyrapavadinimas"`. -/
theorem toID_remove_then_lower (tbl : Nat → Nat) (s : GoString) :
    toID tbl s = ToLower tbl (removeRunes strippedRunes s)
      ∧ toID tbl (goStr "Šis Yra Pavadinimas") = goStr "isyrapavadinimas" := by
  refine ⟨?_, rfl⟩
  unfold toID
  rw [replaceAllString_eq_removeRunes]

/-- C7: `toID("Žalgiris")` is "žalgiris", not the lower-case form of the name
with the stripped letters removed, which is "algiris".  The capital `Ž`
(U+017D) is not in the last class `[ž-ſ]` of the expression, so it is not
removed, and lower-casing turns it into `ž` (U+017E), a letter of the stripped
set that stays in the result. -/
theorem toID_keeps_stripped_letter :
    toID caseRange0179 (goStr "Žalgiris") = goStr "žalgiris"
      ∧ ToLower caseRange0179 (goStr "Žalgiris") = goStr "žalgiris"
      ∧ removeRunes strippedRunes (ToLower caseRange0179 (goStr "Žalgiris")) = goStr "algiris"
      ∧ toID caseRange0179 (goStr "Žalgiris")
          ≠ removeRunes strippedRunes (ToLower caseRange0179 (goStr "Žalgiris"))
      ∧ (∃ p ∈ runesOf (toID caseRange0179 (goStr "Žalgiris")), p.1 ∈ strippedRunes) := by
  refine ⟨by decide, by decide, by decide, by decide, ?_⟩
  exact ⟨(0x017E, goStr "ž"), by decide, by decide⟩

/-- C8: `toID` is not stable on "Ž" (U+017D).  The string has no space and no
code point that `toID` strips, because the last class of the expression is
`[ž-ſ]` and starts one code point after `Ž`; lower-casing turns it
into "ž" (U+017E), which a second `toID` strips. -/
theorem toID_unstable_on_Z_caron :
    ReplaceAllString regex_lith_chars_spaces (goStr "Ž") = goStr "Ž"
      ∧ (∀ p ∈ runesOf (goStr "Ž"), p.1 ∉ strippedRunes)
      ∧ toID caseRange0179 (goStr "Ž") = goStr "ž"
      ∧ toID caseRange0179 (toID caseRange0179 (goStr "Ž")) = goStr ""
      ∧ toID caseRange0179 (toID caseRange0179 (goStr "Ž")) ≠ toID caseRange0179 (goStr "Ž") := by
  refine ⟨by decide, by decide, by decide, by decide, by decide⟩

/-! ### The image pipeline -/

theorem getUrls_eq {Img : Type} (attractions : List Attraction)
    (toDownload : List (Downloadable Img)) (failed : List GoString) :
    getUrls attractions toDownload failed
      = (toDownload ++ (attractions.filter (fun a => a.url.Valid)).map
            (fun a => { url := a.url.String, id := a.id, image := [], decoded_img := none }),
         failed ++ (attractions.filter (fun a => !a.url.Valid)).map (fun a => a.id)) := by
  induction attractions generalizing toDownload failed with
  | nil => simp [getUrls]
  | cons a rest ih =>
    by_cases hv : a.url.Valid = true
    · simp [getUrls, hv, ih]
    · simp [getUrls, hv, ih]

theorem downloadLoop_eq {Img : Type} (ops : ImageOps Img) (n : Nat)
    (l new_down : List (Downloadable Img)) (failed : List GoString) :
    downloadLoop ops n l new_down failed
      = (new_down ++ (l.enumFrom n).filterMap (fetched ops),
         failed ++ ((l.enumFrom n).filter (fun p => (fetched ops p).isNone)).map
            (fun p => p.2.id)) := by
  induction l generalizing n new_down failed with
  | nil => simp [downloadLoop]
  | cons d rest ih =>
    cases h : ops.httpGet n d.url with
    | none => simp [downloadLoop, h, ih, fetched, List.enumFrom]
    | some body => simp [downloadLoop, h, ih, fetched, List.enumFrom]

theorem processLoop_eq {Img : Type} (ops : ImageOps Img)
    (l new_down : List (Downloadable Img)) (failed : List GoString) :
    processLoop ops l new_down failed
      = (new_down ++ l.filterMap (processed ops),
         failed ++ (l.filter (fun d => (processed ops d).isNone)).map (fun d => d.id)) := by
  induction l generalizing new_down failed with
  | nil => simp [processLoop]
  | cons d rest ih =>
    cases h : ops.decode d.image with
    | none => simp [processLoop, h, ih, processed]
    | some img =>
      cases h2 : ops.crop (ops.resize img) with
      | none => simp [processLoop, h, h2, ih, processed]
      | some cropped => simp [processLoop, h, h2, ih, processed]

theorem pipeline_counts {Img : Type} (ops : ImageOps Img) (E : List (Nat × Downloadable Img)) :
    (E.filter (fun p => (fetched ops p).isNone)).length
        + ((E.filterMap (fetched ops)).filter (fun d => (processed ops d).isNone)).length
      = (E.filter (fun p => imageFails ops p.1 p.2.url)).length
    ∧ ((E.filterMap (fetched ops)).filterMap (processed ops)).length
        + (E.filter (fun p => imageFails ops p.1 p.2.url)).length
      = E.length := by
  induction E with
  | nil => simp
  | cons p rest ih =>
    obtain ⟨ih1, ih2⟩ := ih
    cases h : ops.httpGet p.1 p.2.url with
    | none =>
      simp only [fetched, imageFails, h, Option.map_none', Option.isNone_none, List.filter_cons,
        List.filterMap_cons, if_true, List.length_cons] at ih1 ih2 ⊢
      constructor <;> omega
    | some body =>
      cases h1 : ops.decode body with
      | none =>
        simp only [fetched, processed, imageFails, h, h1, Option.map_some', Option.isNone_some,
          Option.isNone_none, Option.none_bind, List.filter_cons, List.filterMap_cons, if_true,
          List.length_cons] at ih1 ih2 ⊢
        simp only [Bool.false_eq_true, if_false]
        constructor <;> omega
      | some img =>
        cases h2 : ops.crop (ops.resize img) with
        | none =>
          simp only [fetched, processed, imageFails, h, h1, h2, Option.map_some',
            Option.map_none', Option.isNone_some, Option.isNone_none, Option.some_bind,
            List.filter_cons, List.filterMap_cons, if_true, List.length_cons] at ih1 ih2 ⊢
          simp only [Bool.false_eq_true, if_false]
          constructor <;> omega
        | some cropped =>
          simp only [fetched, processed, imageFails, h, h1, h2, Option.map_some',
            Option.isNone_some, Option.some_bind, List.filter_cons, List.filterMap_cons,
            List.length_cons] at ih1 ih2 ⊢
          simp only [Bool.false_eq_true, if_false]
          constructor <;> omega

theorem enumFrom_faults {Img : Type} (ops : ImageOps Img) (n : Nat) (A : List Attraction) :
    (((A.map (fun a => ({ url := a.url.String, id := a.id, image := [], decoded_img := none }
          : Downloadable Img))).enumFrom n).filter
        (fun p => imageFails ops p.1 p.2.url)).length
      = ((A.enumFrom n).filter (fun p => imageFails ops p.1 p.2.url.String)).length := by
  induction A generalizing n with
  | nil => simp
  | cons a rest ih =>
    simp only [List.map_cons, List.enumFrom, List.filter_cons]
    by_cases hf : imageFails ops n a.url.String = true
    · simp [hf, ih]
    · simp [hf, ih]

theorem length_filter_valid_add (attractions : List Attraction) :
    (attractions.filter (fun a => a.url.Valid)).length + countNoUrl attractions
      = attractions.length := by
  unfold countNoUrl
  induction attractions with
  | nil => simp
  | cons a rest ih =>
    by_cases hv : a.url.Valid = true
    · simp [hv]; omega
    · simp [hv]; omega

/-- C3: for every list of N records, of which M have no image reference and K
have a reference but fail at fetch, decode or crop, running `getUrls`,
`download` and `process` from empty lists leaves exactly M+K ids in the
Failure List and exactly N-M-K surviving items; when M+K = N the Failure List
has N ids and no item survives. -/
theorem runPipeline_counts {Img : Type} (ops : ImageOps Img) (attractions : List Attraction) :
    (runPipeline ops attractions).2.length
        = countNoUrl attractions + countImageFaults ops attractions
      ∧ (runPipeline ops attractions).1.length
        = attractions.length - countNoUrl attractions - countImageFaults ops attractions
      ∧ countNoUrl attractions + countImageFaults ops attractions ≤ attractions.length
      ∧ (countNoUrl attractions + countImageFaults ops attractions = attractions.length →
          (runPipeline ops attractions).2.length = attractions.length
            ∧ (runPipeline ops attractions).1 = []) := by
  have hsplit := length_filter_valid_add attractions
  have hc := pipeline_counts ops
    (((attractions.filter (fun a => a.url.Valid)).map
      (fun a => ({ url := a.url.String, id := a.id, image := [], decoded_img := none }
        : Downloadable Img))).enumFrom 0)
  have hk := enumFrom_faults ops 0 (attractions.filter (fun a => a.url.Valid))
  obtain ⟨hc1, hc2⟩ := hc
  rw [hk] at hc1 hc2
  have hK : countImageFaults ops attractions
      = (((attractions.filter (fun a => a.url.Valid)).enumFrom 0).filter
          (fun p => imageFails ops p.1 p.2.url.String)).length := rfl
  have hfail : (runPipeline ops attractions).2.length
      = countNoUrl attractions + countImageFaults ops attractions := by
    simp only [runPipeline, download, process, getUrls_eq, downloadLoop_eq, processLoop_eq,
      List.nil_append, List.length_append, List.length_map]
    rw [hK, ← hc1]
    unfold countNoUrl
    omega
  have hsurv : (runPipeline ops attractions).1.length + countImageFaults ops attractions
      = (attractions.filter (fun a => a.url.Valid)).length := by
    simp only [runPipeline, download, process, getUrls_eq, downloadLoop_eq, processLoop_eq,
      List.nil_append]
    rw [hK, hc2]
    simp
  refine ⟨hfail, by omega, by omega, ?_⟩
  intro hall
  refine ⟨by omega, ?_⟩
  apply List.eq_nil_of_length_eq_zero
  omega

/-- C3 witness: a batch of two records, one without image reference and one
whose fetch fails: both ids are in the Failure List and no item survives. -/
theorem runPipeline_counts_witness :
    countNoUrl sampleBatch + countImageFaults failingOps sampleBatch = sampleBatch.length
      ∧ (runPipeline failingOps sampleBatch).2.length = 2
      ∧ (runPipeline failingOps sampleBatch).1 = [] :=
  ⟨by decide,
   ((runPipeline_counts failingOps sampleBatch).2.2.2 (by decide)).1,
   ((runPipeline_counts failingOps sampleBatch).2.2.2 (by decide)).2⟩

/-! ### The cache and the external store -/

theorem commitAttractionsToDB_target_rows (w : World) (f : Faults) (url : String)
    (attractions : List Attraction) (ho : f.openErr = none) (hd : f.deleteErr = none) :
    ((commitAttractionsToDB w f url attractions).1 url).destinations.rows = [] := by
  simp [commitAttractionsToDB, ho, hd, execDelete, World.set]

theorem commitAttractionsToDB_other_paths (w : World) (f : Faults) (url : String)
    (attractions : List Attraction) (p : String) (hp : p ≠ url) :
    (commitAttractionsToDB w f url attractions).1 p = w p := by
  unfold commitAttractionsToDB
  cases f.openErr with
  | some e => rfl
  | none => simp [World.set, hp]

theorem commitAttractionsToDB_titles (w : World) (f : Faults) (url : String)
    (attractions : List Attraction) (p : String) :
    ((commitAttractionsToDB w f url attractions).1 p).titles = (w p).titles := by
  unfold commitAttractionsToDB
  cases f.openErr with
  | some e => rfl
  | none =>
    by_cases hp : p = url
    · simp [World.set, hp]
    · simp [World.set, hp]

/-- C1: `commitAttractionsToDB` returns without error on a batch of one record
and yet the `destinations` table of the external store holds no row for it:
the `DELETE FROM destinations` after the INSERT runs on the connection to the
external store and removes the rows just inserted. -/
theorem commitAttractionsToDB_loses_batch :
    (commitAttractionsToDB sampleWorld noFaults "target.db" [sampleAttraction]).2 = none
      ∧ ((commitAttractionsToDB sampleWorld noFaults "target.db" [sampleAttraction]).1
          "target.db").destinations.rows = [] := by
  decide

/-- C2: after `commitAttractionsToDB` returns without error the `destinations`
table of the cache still holds its row: the DELETE went to the external store.
The `titles` table of the cache is as before. -/
theorem commitAttractionsToDB_keeps_cache :
    (commitAttractionsToDB sampleWorld noFaults "target.db" [sampleAttraction]).2 = none
      ∧ ((commitAttractionsToDB sampleWorld noFaults "target.db" [sampleAttraction]).1
          cachePath).destinations.rows = sampleCache.destinations.rows
      ∧ sampleCache.destinations.rows ≠ []
      ∧ ((commitAttractionsToDB sampleWorld noFaults "target.db" [sampleAttraction]).1
          cachePath).titles = sampleCache.titles := by
  decide

theorem getTitleFields_foldl (ts : List Title) (tv : TitleValues) :
    ts.foldl (fun tv t => (⟨tv.compares ++ [t.compare], tv.displays ++ [t.display]⟩ : TitleValues))
        tv
      = ⟨tv.compares ++ ts.map (fun t => t.compare), tv.displays ++ ts.map (fun t => t.display)⟩ := by
  induction ts generalizing tv with
  | nil => simp
  | cons t rest ih => simp [ih]

theorem getTitleFields_eq (ts : List Title) :
    getTitleFields ts = ⟨ts.map (fun t => t.compare), ts.map (fun t => t.display)⟩ := by
  unfold getTitleFields
  rw [getTitleFields_foldl]
  simp

theorem scanAttraction_tmp (tmp a : Attraction) (row : List SqlValue) (hn : tmp.name = [])
    (h : scanAttraction zeroAttraction row = .ok a) :
    scanAttraction tmp row = .ok a ∧ a.name = [] := by
  unfold scanAttraction at h ⊢
  split at h
  · rename_i c0 c1 c2 c3 c4 c5
    split at h
    · rename_i id category location description h0 h1 h2 h3
      injection h with h
      subst h
      simp [zeroAttraction, hn]
    · cases h
  · cases h

theorem readCacheRows_ok (rows : List (List SqlValue)) (tmp : Attraction) (acc : List Attraction)
    (hn : tmp.name = [])
    (h : ∀ r ∈ rows, ∃ a, scanAttraction zeroAttraction r = .ok a) :
    ∃ out, readCacheRows rows tmp acc = (acc ++ out, none)
      ∧ List.Forall₂ (fun r a => scanAttraction zeroAttraction r = .ok a) rows out := by
  induction rows generalizing tmp acc with
  | nil => exact ⟨[], by simp [readCacheRows], List.Forall₂.nil⟩
  | cons r rest ih =>
    obtain ⟨a, ha⟩ := h r (by simp)
    obtain ⟨h1, h2⟩ := scanAttraction_tmp tmp a r hn ha
    obtain ⟨out, ho, hf⟩ := ih a (acc ++ [a]) h2 (fun q hq => h q (List.mem_cons_of_mem _ hq))
    refine ⟨a :: out, ?_, List.Forall₂.cons ha hf⟩
    simp [readCacheRows, h1, ho]

theorem readTitlesRows_ok (rows : List (List SqlValue)) (acc : List Title)
    (h : ∀ r ∈ rows, ∃ t, scanTitle r = .ok t) :
    ∃ out, readTitlesRows rows acc = .ok (acc ++ out)
      ∧ List.Forall₂ (fun r t => scanTitle r = .ok t) rows out := by
  induction rows generalizing acc with
  | nil => exact ⟨[], by simp [readTitlesRows], List.Forall₂.nil⟩
  | cons r rest ih =>
    obtain ⟨t, ht⟩ := h r (by simp)
    obtain ⟨out, ho, hf⟩ := ih (acc ++ [t]) (fun q hq => h q (List.mem_cons_of_mem _ hq))
    refine ⟨t :: out, ?_, List.Forall₂.cons ht hf⟩
    simp [readTitlesRows, ht, ho]

/-- C9: without a storage fault (the query succeeds and every row can be
scanned), `readCache` on a cache with no attraction row returns the error
"Cache is empty" and no records, while `readTitles` on a cache with no title
row returns no error and a `TitleValues` with empty `compares` and `displays`;
on a table with rows each returns one entry per row, in row order. -/
theorem readCache_readTitles_contract (w : World)
    (hD : ∀ r ∈ (w cachePath).destinations.rows, ∃ a, scanAttraction zeroAttraction r = .ok a)
    (hT : ∀ r ∈ (w cachePath).titles.rows, ∃ t, scanTitle r = .ok t) :
    ((w cachePath).destinations.rows = [] → readCache w none = ([], some "Cache is empty"))
      ∧ ((w cachePath).titles.rows = [] → readTitles w none = (some ⟨[], []⟩, none))
      ∧ ((w cachePath).destinations.rows ≠ [] →
          ∃ attractions, readCache w none = (attractions, none)
            ∧ List.Forall₂ (fun r a => scanAttraction zeroAttraction r = .ok a)
                (w cachePath).destinations.rows attractions)
      ∧ (∃ titles, readTitles w none
              = (some ⟨titles.map (fun t => t.compare), titles.map (fun t => t.display)⟩, none)
            ∧ List.Forall₂ (fun r t => scanTitle r = .ok t) (w cachePath).titles.rows titles) := by
  refine ⟨?_, ?_, ?_, ?_⟩
  · intro he
    simp [readCache, he, readCacheRows]
  · intro he
    simp [readTitles, he, readTitlesRows, getTitleFields]
  · intro hne
    obtain ⟨out, ho, hf⟩ := readCacheRows_ok _ zeroAttraction [] rfl hD
    refine ⟨out, ?_, hf⟩
    have hlen : out.length ≠ 0 := by
      rw [← hf.length_eq]
      exact fun h0 => hne (List.eq_nil_of_length_eq_zero h0)
    simp only [List.nil_append] at ho
    simp [readCache, ho, hlen]
  · obtain ⟨out, ho, hf⟩ := readTitlesRows_ok _ [] hT
    refine ⟨out, ?_, hf⟩
    simp only [List.nil_append] at ho
    simp [readTitles, ho, getTitleFields_eq]

/-- C9 witness: the sample cache, with one attraction row and one title row,
and the cache with empty tables. -/
theorem readCache_readTitles_contract_witness :
    (readCache sampleWorld none = ([sampleRead], none)
      ∧ readTitles sampleWorld none = (some ⟨[goStr "vilnius"], [goStr "Vilnius"]⟩, none))
    ∧ (readCache emptyWorld none = ([], some "Cache is empty")
      ∧ readTitles emptyWorld none = (some ⟨[], []⟩, none)) := by
  have hD : ∀ r ∈ (sampleWorld cachePath).destinations.rows,
      ∃ a, scanAttraction zeroAttraction r = .ok a := by
    intro r hr
    have hr2 : r = [.text (goStr "vilnius"), .text (goStr "heritage"), .text (goStr "d"),
        .text (goStr "l"), .text (goStr "http://example.org/v.jpg"), .null] := by
      simpa [sampleWorld, sampleCache, cachePath] using hr
    subst hr2
    exact ⟨_, rfl⟩
  have hT : ∀ r ∈ (sampleWorld cachePath).titles.rows, ∃ t, scanTitle r = .ok t := by
    intro r hr
    have hr2 : r = [.text (goStr "vilnius"), .text (goStr "Vilnius")] := by
      simpa [sampleWorld, sampleCache, cachePath] using hr
    subst hr2
    exact ⟨_, rfl⟩
  have hD0 : ∀ r ∈ (emptyWorld cachePath).destinations.rows,
      ∃ a, scanAttraction zeroAttraction r = .ok a := by
    intro r hr
    simp [emptyWorld, sampleTarget] at hr
  have hT0 : ∀ r ∈ (emptyWorld cachePath).titles.rows, ∃ t, scanTitle r = .ok t := by
    intro r hr
    simp [emptyWorld, sampleTarget] at hr
  obtain ⟨-, -, hc, ht⟩ := readCache_readTitles_contract sampleWorld hD hT
  obtain ⟨he1, he2, -, -⟩ := readCache_readTitles_contract emptyWorld hD0 hT0
  refine ⟨⟨?_, ?_⟩, he1 rfl, he2 rfl⟩
  · obtain ⟨attractions, hr, hf⟩ := hc (by decide)
    rw [hr]
    have hrows : (sampleWorld cachePath).destinations.rows
        = [[.text (goStr "vilnius"), .text (goStr "heritage"), .text (goStr "d"),
            .text (goStr "l"), .text (goStr "http://example.org/v.jpg"), .null]] := by
      decide
    rw [hrows] at hf
    cases hf with
    | cons h1 h2 =>
      cases h2
      have h3 : scanAttraction zeroAttraction
          [.text (goStr "vilnius"), .text (goStr "heritage"), .text (goStr "d"),
            .text (goStr "l"), .text (goStr "http://example.org/v.jpg"), .null]
          = .ok sampleRead := rfl
      rw [h3] at h1
      injection h1 with h1
      rw [h1]
  · obtain ⟨titles, hr, hf⟩ := ht
    rw [hr]
    have hrows : (sampleWorld cachePath).titles.rows
        = [[.text (goStr "vilnius"), .text (goStr "Vilnius")]] := by
      decide
    rw [hrows] at hf
    cases hf with
    | cons h1 h2 =>
      cases h2
      have h3 : scanTitle [.text (goStr "vilnius"), .text (goStr "Vilnius")]
          = .ok ⟨goStr "vilnius", goStr "Vilnius"⟩ := rfl
      rw [h3] at h1
      injection h1 with h1
      rw [← h1]
      rfl

/-! ### The bigram intersection -/

theorem occurrences_eq_count (x : GoString) (l : List GoString) :
    occurrences x l = Multiset.count x (↑l : Multiset GoString) := by
  unfold occurrences
  rw [Multiset.count_eq_card_filter_eq, Multiset.filter_coe, Multiset.coe_card]
  congr 1
  apply List.filter_congr
  intro y _
  simp [eq_comm]

theorem card_inter_eq_sum_min (A B : List GoString) :
    Multiset.card ((↑A : Multiset GoString) ∩ ↑B)
      = (((A ++ B).dedup).map (fun x => min (occurrences x A) (occurrences x B))).sum := by
  have hsub : ∀ x ∈ (↑A : Multiset GoString) ∩ ↑B, x ∈ ((A ++ B).dedup).toFinset := by
    intro x hx
    have hxA : x ∈ A := Multiset.mem_coe.mp (Multiset.mem_inter.mp hx).1
    simp [hxA]
  rw [← Multiset.sum_count_eq_card hsub, List.sum_toFinset _ (List.nodup_dedup _)]
  congr 1
  apply List.map_congr_left
  intro x _
  rw [Multiset.count_inter, occurrences_eq_count, occurrences_eq_count]

/-- On ASCII strings the number of shared bigrams that `compareID` counts is the
sum, over every length-2 substring, of the smaller number of occurrences. -/
theorem sharedBigrams_ascii (a b : GoString)
    (ha : ∀ c ∈ a, c.toNat < 0x80) (hb : ∀ c ∈ b, c.toNat < 0x80) :
    sharedBigrams a b = bigramIntersection a b := by
  unfold sharedBigrams bigramIntersection
  rw [bigramsOf_ascii a ha, bigramsOf_ascii b hb]
  exact card_inter_eq_sum_min _ _

/-- On two different ASCII strings of at least two bytes each, `compareID`
returns the `float32` quotient `2 * I / (len(a) + len(b) - 2)` with `I` the
bigram intersection. -/
theorem compareID_ascii (a b : GoString) (hab : a ≠ b)
    (hla : 2 ≤ a.length) (hlb : 2 ≤ b.length)
    (ha : ∀ c ∈ a, c.toNat < 0x80) (hb : ∀ c ∈ b, c.toNat < 0x80) :
    compareID a b
      = .ok (.num (score32 (bigramIntersection a b) ((a.length : Int) + (b.length : Int) - 2))) := by
  rw [(compareID_unit_interval a b hab hla hlb).1, sharedBigrams_ascii a b ha hb]

theorem compareID_self (a : GoString) : compareID a a = .ok (.num 1) := by
  simp [compareID]

/-- C11: `compareID` does not always return `2 * I / (len(a) + len(b) - 2)` with
`I` the intersection of all length-2 substrings.  The strings "éa" and "ĩa" are
three bytes each and share the length-2 substring made of their last two bytes,
so `I = 1` and the formula gives 2*1/(3+3-2) = 1/2; the loops of `compareID`
run over `range a[:lena-1]`, which yields only the index 0 at which the
two-byte letter starts, so the bigrams collected are "é" and "ĩ" and the result
is 0. -/
theorem compareID_skips_bigrams :
    goStr "éa" ≠ goStr "ĩa" ∧ (goStr "éa").length = 3 ∧ (goStr "ĩa").length = 3
      ∧ substrings2 (goStr "éa") = [[0xC3, 0xA9], [0xA9, 0x61]]
      ∧ substrings2 (goStr "ĩa") = [[0xC4, 0xA9], [0xA9, 0x61]]
      ∧ bigramIntersection (goStr "éa") (goStr "ĩa") = 1
      ∧ bigramsOf (goStr "éa") = [[0xC3, 0xA9]]
      ∧ bigramsOf (goStr "ĩa") = [[0xC4, 0xA9]]
      ∧ compareID (goStr "éa") (goStr "ĩa") = .ok (.num 0)
      ∧ (0 : ℚ) ≠ 2 * 1 / (3 + 3 - 2) := by
  have hscore : compareID (goStr "éa") (goStr "ĩa") = .ok (.num 0) := by
    have h := (compareID_unit_interval (goStr "éa") (goStr "ĩa")
      (by decide) (by decide) (by decide)).1
    have hs : sharedBigrams (goStr "éa") (goStr "ĩa") = 0 := by decide
    rw [h, hs, score32_zero]
  repeat' apply And.intro
  all_goals first | decide | exact hscore | norm_num

/-! ### wrap and commitAttraction -/

theorem decodeRune_width_pos (s : GoString) : 1 ≤ (decodeRune s).2 := by
  unfold decodeRune
  split
  · simp
  · split
    · simp
    · split
      · split
        · split <;> simp
        · simp
      · split
        · split
          · simp only []
            split <;> simp
          · simp
        · split
          · split
            · simp only []
              split <;> simp
            · simp
          · simp

theorem runesFrom_bytes (k : Nat) (s : GoString) :
    (runesFrom k s).flatMap (fun p => p.2) = s.drop k := by
  induction s generalizing k with
  | nil => simp [runesFrom]
  | cons b rest ih =>
    cases k with
    | zero =>
      have hw := decodeRune_width_pos (b :: rest)
      simp only [runesFrom, List.flatMap_cons, ih, List.drop_zero]
      have hd : rest.drop ((decodeRune (b :: rest)).2 - 1)
          = (b :: rest).drop (decodeRune (b :: rest)).2 := by
        obtain ⟨n, hn⟩ : ∃ n, (decodeRune (b :: rest)).2 = n + 1 := ⟨_, (Nat.sub_add_cancel hw).symm⟩
        rw [hn]
        simp
      rw [hd, List.take_append_drop]
    | succ k => simp [runesFrom, ih]

/-- The bytes of the code points of `s`, put together, are `s`. -/
theorem runesOf_bytes (s : GoString) : (runesOf s).flatMap (fun p => p.2) = s := by
  unfold runesOf
  rw [runesFrom_bytes, List.drop_zero]

theorem dropWhile_of_head {α : Type} (p : α → Bool) (l : List α)
    (h : ∀ x, l.head? = some x → p x = false) : l.dropWhile p = l := by
  cases l with
  | nil => rfl
  | cons x rest =>
    have hx : p x = false := h x rfl
    simp [List.dropWhile, hx]

/-- A string that neither starts nor ends with a white space code point is
left as it is by `strings.TrimSpace`. -/
theorem TrimSpace_of_no_space (s : GoString)
    (hfirst : ∀ p, (runesOf s).head? = some p → isSpace p.1 = false)
    (hlast : ∀ p, (runesOf s).getLast? = some p → isSpace p.1 = false) :
    TrimSpace s = s := by
  unfold TrimSpace
  rw [dropWhile_of_head _ _ hfirst]
  rw [dropWhile_of_head _ _ (by
    intro p hp
    rw [List.head?_reverse] at hp
    exact hlast p hp)]
  rw [List.reverse_reverse, runesOf_bytes]

theorem commitAttraction_titles (w : World) (a : Attraction)
    (hd : ∀ c ∈ ["id", "category", "description", "location", "url", "copyright"],
      c ∈ (w cachePath).destinations.columns)
    (ht : (w cachePath).titles.columns = ["compare", "display"]) :
    (commitAttraction w noTxFaults a).2 = none
      ∧ ((commitAttraction w noTxFaults a).1 cachePath).titles.rows
        = (w cachePath).titles.rows ++ [[SqlValue.text a.id, SqlValue.text a.name]] := by
  have hcols : (["id", "category", "description", "location", "url", "copyright"].any
      (fun c => !(w cachePath).destinations.columns.contains c)) = false := by
    rw [List.any_eq_false]
    intro c hc
    simp [hd c hc]
  have hins : ∀ rows, (execInsert (w cachePath).destinations
      ["id", "category", "description", "location", "url", "copyright"] [rows] none).2 = none := by
    intro rows
    unfold execInsert
    rw [hcols]
    simp
  have htit : commitTitles (w cachePath).titles [⟨a.id, a.name⟩] none
      = ({ (w cachePath).titles with
            rows := (w cachePath).titles.rows ++ [[SqlValue.text a.id, SqlValue.text a.name]] },
          none) := by
    simp [commitTitles, execInsert, ht, insertRow, List.lookup]
  simp only [commitAttraction, noTxFaults, hins, htit]
  simp [World.set]

/-- C12, as the code has it: for every submitted record with name `n`, the id
of the Attraction built by `wrap` and the compare value of the Title written
by `commitAttraction` both equal `toID(n)`, and the display value of the Title
(the name of the record) equals `strings.TrimSpace(n)`, which is `n` itself
when `n` neither starts nor ends with white space. -/
theorem wrap_commitAttraction_title (tbl : Nat → Nat) (json : JsonMarshal) (ra : RawAttraction)
    (w : World)
    (hd : ∀ c ∈ ["id", "category", "description", "location", "url", "copyright"],
      c ∈ (w cachePath).destinations.columns)
    (ht : (w cachePath).titles.columns = ["compare", "display"]) :
    (wrap tbl json ra).id = toID tbl ra.Description.Name
      ∧ (wrap tbl json ra).name = TrimSpace ra.Description.Name
      ∧ (commitAttraction w noTxFaults (wrap tbl json ra)).2 = none
      ∧ ((commitAttraction w noTxFaults (wrap tbl json ra)).1 cachePath).titles.rows
        = (w cachePath).titles.rows
            ++ [[SqlValue.text (toID tbl ra.Description.Name),
                 SqlValue.text (TrimSpace ra.Description.Name)]]
      ∧ ((∀ p, (runesOf ra.Description.Name).head? = some p → isSpace p.1 = false) →
          (∀ p, (runesOf ra.Description.Name).getLast? = some p → isSpace p.1 = false) →
          TrimSpace ra.Description.Name = ra.Description.Name) := by
  obtain ⟨h1, h2⟩ := commitAttraction_titles w (wrap tbl json ra) hd ht
  exact ⟨rfl, rfl, h1, h2, TrimSpace_of_no_space _⟩

/-- C12 witness: the sample submission, whose name is " Vilnius", stored in a
fresh cache. -/
theorem wrap_commitAttraction_title_witness :
    (wrap caseRange0179 sampleJson sampleRaw).id = toID caseRange0179 sampleRaw.Description.Name
      ∧ (wrap caseRange0179 sampleJson sampleRaw).name = TrimSpace sampleRaw.Description.Name
      ∧ (commitAttraction freshWorld noTxFaults (wrap caseRange0179 sampleJson sampleRaw)).2 = none
      ∧ ((commitAttraction freshWorld noTxFaults
            (wrap caseRange0179 sampleJson sampleRaw)).1 cachePath).titles.rows
        = (freshWorld cachePath).titles.rows
            ++ [[SqlValue.text (toID caseRange0179 sampleRaw.Description.Name),
                 SqlValue.text (TrimSpace sampleRaw.Description.Name)]]
      ∧ ((∀ p, (runesOf sampleRaw.Description.Name).head? = some p → isSpace p.1 = false) →
          (∀ p, (runesOf sampleRaw.Description.Name).getLast? = some p → isSpace p.1 = false) →
          TrimSpace sampleRaw.Description.Name = sampleRaw.Description.Name) :=
  wrap_commitAttraction_title caseRange0179 sampleJson sampleRaw freshWorld
    (by decide) (by decide)

/-- C12 as stated fails: for the submitted name " Vilnius" the id and the
compare value are "vilnius", and the display value written to the cache is
"Vilnius", not the submitted name. -/
theorem wrap_trims_display_name :
    sampleRaw.Description.Name = goStr " Vilnius"
      ∧ (wrap caseRange0179 sampleJson sampleRaw).id = goStr "vilnius"
      ∧ (wrap caseRange0179 sampleJson sampleRaw).name = goStr "Vilnius"
      ∧ ((commitAttraction freshWorld noTxFaults
            (wrap caseRange0179 sampleJson sampleRaw)).1 cachePath).titles.rows
        = [[SqlValue.text (goStr "vilnius"), SqlValue.text (goStr "Vilnius")]]
      ∧ goStr "Vilnius" ≠ sampleRaw.Description.Name := by
  refine ⟨by decide, by decide, by decide, by decide, by decide⟩

/-! ### Reading back what commitAttraction stored -/

/-- On a cache whose `destinations` table is empty and has its columns in the
order named by the INSERT of `commitAttraction`, the record that `readCache`
returns after `commitAttraction` stored `r` has the description and the
location of `r` exchanged, and the url and the copyright of `r` exchanged. -/
theorem readCache_after_commitAttraction (w : World) (r : Attraction)
    (hd : (w cachePath).destinations.columns
      = ["id", "category", "description", "location", "url", "copyright"])
    (hrows : (w cachePath).destinations.rows = [])
    (ht : (w cachePath).titles.columns = ["compare", "display"]) :
    (commitAttraction w noTxFaults r).2 = none
      ∧ readCache (commitAttraction w noTxFaults r).1 none
        = ([{ id := r.id, category := r.category, description := r.location,
              location := r.description, name := [],
              url := scanNullString r.copyright.value,
              copyright := scanNullString r.url.value }], none) := by
  have hins : execInsert (w cachePath).destinations
      ["id", "category", "description", "location", "url", "copyright"]
      [[SqlValue.text r.id, SqlValue.text r.category, SqlValue.text r.description,
        SqlValue.text r.location, r.url.value, r.copyright.value]] none
      = ({ (w cachePath).destinations with
            rows := [[SqlValue.text r.id, SqlValue.text r.category, SqlValue.text r.description,
              SqlValue.text r.location, r.url.value, r.copyright.value]] }, none) := by
    simp [execInsert, hd, hrows, insertRow, List.lookup]
  have htit : (commitTitles (w cachePath).titles [⟨r.id, r.name⟩] none).2 = none := by
    simp [commitTitles, execInsert, ht]
  constructor
  · simp [commitAttraction, noTxFaults, hins, htit]
  · simp [commitAttraction, noTxFaults, hins, htit, readCache, World.set, readCacheRows,
      scanAttraction, scanString, zeroAttraction]

/-- C13 as stated fails: with the columns of the cache table in the order of
the INSERT of `commitAttraction`, the record that `readCache` returns is not
the record stored.  For the sample record (description "d", location "l", an image url and
no copyright) the record read back has description "l", location "d", no url
and the image url as its copyright: `rows.Scan` fills location, description,
copyright, url in that order from the columns description, location, url,
copyright.  `getUrls` then finds no url and puts the id in the Failure List. -/
theorem readCache_exchanges_columns :
    (freshWorld cachePath).destinations.columns
        = ["id", "category", "description", "location", "url", "copyright"]
      ∧ (commitAttraction freshWorld noTxFaults sampleAttraction).2 = none
      ∧ readCache (commitAttraction freshWorld noTxFaults sampleAttraction).1 none
        = ([sampleRead], none)
      ∧ sampleRead.id = sampleAttraction.id
      ∧ sampleRead.category = sampleAttraction.category
      ∧ sampleRead.description = sampleAttraction.location
      ∧ sampleRead.description ≠ sampleAttraction.description
      ∧ sampleRead.location = sampleAttraction.description
      ∧ sampleRead.location ≠ sampleAttraction.location
      ∧ sampleAttraction.url.Valid = true
      ∧ sampleRead.url.Valid = false
      ∧ sampleRead.copyright = sampleAttraction.url
      ∧ sampleRead.copyright ≠ sampleAttraction.copyright
      ∧ @getUrls Nat [sampleRead] [] [] = ([], [sampleAttraction.id]) := by
  repeat' apply And.intro
  all_goals first | decide | rfl

theorem scanNullString_value (n : NullString) (h : n.Valid = false → n.String = []) :
    scanNullString n.value = n := by
  obtain ⟨str, valid⟩ := n
  cases valid with
  | true => simp [NullString.value, scanNullString]
  | false =>
    have hs : str = [] := h rfl
    subst hs
    simp [NullString.value, scanNullString]

theorem forall2_snoc {α β : Type} (R : α → β → Prop) (l : List α) (x : α) (out : List β)
    (h : List.Forall₂ R (l ++ [x]) out) :
    ∃ out0 y, out = out0 ++ [y] ∧ List.Forall₂ R l out0 ∧ R x y := by
  induction l generalizing out with
  | nil =>
    cases h with
    | cons hxy hrest =>
      cases hrest
      exact ⟨[], _, rfl, List.Forall₂.nil, hxy⟩
  | cons a l ih =>
    cases h with
    | cons hab hrest =>
      obtain ⟨out0, y, he, hf, hr⟩ := ih _ hrest
      exact ⟨_ :: out0, y, by rw [he]; rfl, List.Forall₂.cons hab hf, hr⟩

/-- Every record built by `wrap` has an empty string in a `sql.NullString` that
is not valid. -/
theorem wrap_nullStrings (tbl : Nat → Nat) (json : JsonMarshal) (ra : RawAttraction) :
    ((wrap tbl json ra).url.Valid = false → (wrap tbl json ra).url.String = [])
      ∧ ((wrap tbl json ra).copyright.Valid = false → (wrap tbl json ra).copyright.String = []) := by
  constructor
  · intro h
    simp only [wrap, createNullString] at h ⊢
    split at h <;> simp_all
  · intro h
    simp only [wrap, createNullString] at h ⊢
    split at h <;> simp_all

/-- C13, as the code has it: assuming the cache destinations table has its
columns in the order in which `readCache` scans them (id, category, location,
description, copyright, url), for every record `r` stored by `commitAttraction`
the Attraction that `readCache` returns for that row, the last one, has the
same id, category, description, location, url and copyright as `r`. -/
theorem readCache_returns_stored (w : World) (r : Attraction)
    (hd : (w cachePath).destinations.columns
      = ["id", "category", "location", "description", "copyright", "url"])
    (hrows : ∀ row ∈ (w cachePath).destinations.rows,
      ∃ a, scanAttraction zeroAttraction row = .ok a)
    (ht : (w cachePath).titles.columns = ["compare", "display"])
    (hu : r.url.Valid = false → r.url.String = [])
    (hcp : r.copyright.Valid = false → r.copyright.String = []) :
    (commitAttraction w noTxFaults r).2 = none
      ∧ ∃ earlier a, readCache (commitAttraction w noTxFaults r).1 none = (earlier ++ [a], none)
          ∧ earlier.length = (w cachePath).destinations.rows.length
          ∧ a.id = r.id ∧ a.category = r.category ∧ a.description = r.description
          ∧ a.location = r.location ∧ a.url = r.url ∧ a.copyright = r.copyright := by
  have hins : execInsert (w cachePath).destinations
      ["id", "category", "description", "location", "url", "copyright"]
      [[SqlValue.text r.id, SqlValue.text r.category, SqlValue.text r.description,
        SqlValue.text r.location, r.url.value, r.copyright.value]] none
      = ({ (w cachePath).destinations with
            rows := (w cachePath).destinations.rows
              ++ [[SqlValue.text r.id, SqlValue.text r.category, SqlValue.text r.location,
                SqlValue.text r.description, r.copyright.value, r.url.value]] }, none) := by
    simp [execInsert, hd, insertRow, List.lookup]
  have htit : (commitTitles (w cachePath).titles [⟨r.id, r.name⟩] none).2 = none := by
    simp [commitTitles, execInsert, ht]
  have hscan : scanAttraction zeroAttraction
      [SqlValue.text r.id, SqlValue.text r.category, SqlValue.text r.location,
        SqlValue.text r.description, r.copyright.value, r.url.value]
      = .ok { id := r.id, category := r.category, description := r.description,
              location := r.location, name := [], url := r.url, copyright := r.copyright } := by
    simp [scanAttraction, scanString, zeroAttraction, scanNullString_value _ hu,
      scanNullString_value _ hcp]
  have hall : ∀ row ∈ (w cachePath).destinations.rows
      ++ [[SqlValue.text r.id, SqlValue.text r.category, SqlValue.text r.location,
        SqlValue.text r.description, r.copyright.value, r.url.value]],
      ∃ a, scanAttraction zeroAttraction row = .ok a := by
    intro row hrow
    rcases List.mem_append.mp hrow with h1 | h1
    · exact hrows row h1
    · rw [List.mem_singleton.mp h1]
      exact ⟨_, hscan⟩
  obtain ⟨out, ho, hf⟩ := readCacheRows_ok _ zeroAttraction [] rfl hall
  obtain ⟨out0, y, he, hf0, hy⟩ := forall2_snoc _ _ _ _ hf
  rw [hscan] at hy
  injection hy with hy
  have hlen : out.length ≠ 0 := by rw [he]; simp
  simp only [List.nil_append] at ho
  constructor
  · simp [commitAttraction, noTxFaults, hins, htit]
  · refine ⟨out0, y, ?_, hf0.length_eq.symm, ?_⟩
    · simp [commitAttraction, noTxFaults, hins, htit, readCache, World.set, ho, hlen, he]
    · rw [← hy]
      exact ⟨rfl, rfl, rfl, rfl, rfl, rfl⟩

/-- C13 witness: the sample record stored in a cache whose columns are in scan
order: `readCache` returns it with its six fields as stored. -/
theorem readCache_returns_stored_witness :
    (commitAttraction scanOrderWorld noTxFaults sampleAttraction).2 = none
      ∧ ∃ earlier a, readCache (commitAttraction scanOrderWorld noTxFaults sampleAttraction).1 none
            = (earlier ++ [a], none)
          ∧ earlier.length = (scanOrderWorld cachePath).destinations.rows.length
          ∧ a.id = sampleAttraction.id ∧ a.category = sampleAttraction.category
          ∧ a.description = sampleAttraction.description
          ∧ a.location = sampleAttraction.location ∧ a.url = sampleAttraction.url
          ∧ a.copyright = sampleAttraction.copyright :=
  readCache_returns_stored scanOrderWorld sampleAttraction (by decide)
    (by intro row hrow; simp [scanOrderWorld, scanOrderCache, cachePath] at hrow)
    (by decide) (by decide) (by decide)

end Attractions
